import Mathlib

/-!
# Verification of the rqlite storage core (B-Tree engine and cell factory)

This development gives a shallow embedding of the B-Tree layer of the
repository (`src/tree/btree.rs`, `src/tree/cell.rs`) and of the collaborators
those files use.  The collaborators (`page.rs`, `storage.rs` / the `Pager`,
`tree/node.rs`, `tree/record.rs`, `utils`) are not part of the provided
sources; every definition standing in for one of them carries a doc comment
starting with `Modelled from the spec:` and follows the specification's words.
Definitions whose doc comment names a Rust function embed that function from
the source.

Machine integers are modelled as `Nat` / `Int`; byte strings as `List Nat`.
Fallible Rust code returning `io::Result` is modelled with `Except Err`;
functions that mutate the pager thread an explicit state and return it even
when an error is surfaced, matching the fact that `&mut` side effects persist
past an early `?` return.  Loops without a structural termination measure
(`while current_page != 0`, root-to-leaf descent) take an explicit fuel
argument; exhausting the fuel yields the model-only outcome `Err.fuelOut`,
which represents the source loop not having terminated within that many
iterations.
-/

set_option autoImplicit false

namespace RQLite

/-- Error kinds, following §7 of the specification plus the distinguished
`io::ErrorKind::InvalidInput` messages of `btree.rs`.  `fuelOut` is a model
artefact: it marks that a source `while` loop did not finish within the
supplied fuel. -/
inductive Err where
  | ioError
  | corruptFile
  | wrongPageType
  | wrongTreeType
  | noOverflowData
  | malformedVarint
  | truncatedRecord
  | invalidData
  | fuelOut
  deriving DecidableEq

deriving instance DecidableEq for Except

/-! ## Varint codec (Modelled from the spec, §4.1) -/

/-- Modelled from the spec: number of bytes of the shortest SQLite varint
encoding of an unsigned 64-bit value (bytes 1–8 carry 7 bits each, byte 9
carries 8 bits). -/
def varintLen (v : Nat) : Nat :=
  if v < 2 ^ 7 then 1
  else if v < 2 ^ 14 then 2
  else if v < 2 ^ 21 then 3
  else if v < 2 ^ 28 then 4
  else if v < 2 ^ 35 then 5
  else if v < 2 ^ 42 then 6
  else if v < 2 ^ 49 then 7
  else if v < 2 ^ 56 then 8
  else 9

/-- Little-endian list of `k` seven-bit groups of `v`. -/
def sevenLE : Nat → Nat → List Nat
  | 0, _ => []
  | k + 1, v => v % 128 :: sevenLE k (v / 128)

/-- Modelled from the spec: shortest-form big-endian SQLite varint encoding of
an unsigned 64-bit value. -/
def varintEncode (v : Nat) : List Nat :=
  if v < 2 ^ 56 then
    match (sevenLE (varintLen v) v).reverse with
    | [] => [0]
    | b :: bs => ((b :: bs).dropLast.map (fun x => x + 128)) ++ [(b :: bs).getLast (by simp)]
  else
    ((sevenLE 8 (v / 256)).reverse.map (fun x => x + 128)) ++ [v % 256]

/-- Modelled from the spec: varint decoder loop; `used` counts bytes already
consumed.  Fails with `MalformedVarint` on truncation. -/
def varintDecodeCore : Nat → Nat → List Nat → Except Err (Nat × Nat)
  | _, _, [] => .error .malformedVarint
  | used, acc, b :: rest =>
    if used = 8 then .ok (acc * 256 + b, 9)
    else if b < 128 then .ok (acc * 128 + b, used + 1)
    else varintDecodeCore (used + 1) (acc * 128 + (b - 128)) rest

/-- Modelled from the spec: decode a varint from the front of a byte string,
returning the value and the number of bytes consumed. -/
def varintDecode (bs : List Nat) : Except Err (Nat × Nat) :=
  varintDecodeCore 0 0 bs

/-! ## Typed values and the record codec (Modelled from the spec, §3, §4.2) -/

/-- Modelled from the spec: the typed values of a record
(`utils::serialization::SqliteValue`).  A float is carried by its 64-bit
pattern, matching the spec's "floats by bit pattern". -/
inductive SqliteValue where
  | null
  | integer (i : Int)
  | float (bits : Nat)
  | text (bytes : List Nat)
  | blob (bytes : List Nat)
  deriving DecidableEq

/-- Number of two's-complement bytes (among 1, 2, 3, 4, 6, 8) needed for a
signed integer value. -/
def intSerialBytes (i : Int) : Nat :=
  if -(2 ^ 7) ≤ i ∧ i < 2 ^ 7 then 1
  else if -(2 ^ 15) ≤ i ∧ i < 2 ^ 15 then 2
  else if -(2 ^ 23) ≤ i ∧ i < 2 ^ 23 then 3
  else if -(2 ^ 31) ≤ i ∧ i < 2 ^ 31 then 4
  else if -(2 ^ 47) ≤ i ∧ i < 2 ^ 47 then 6
  else 8

/-- Serial-type code of the integer sizes: 1/2/3/4/6/8 bytes are serial types
1/2/3/4/5/6. -/
def intSerialType (n : Nat) : Nat :=
  if n ≤ 4 then n else if n = 6 then 5 else 6

/-- Modelled from the spec: the serial type of a value (§3): 0 = null,
1..6 = integers, 7 = float64, 8/9 = constants 0/1, ≥ 12 even = blob,
≥ 13 odd = text. -/
def serialType : SqliteValue → Nat
  | .null => 0
  | .integer i =>
    if i = 0 then 8 else if i = 1 then 9 else intSerialType (intSerialBytes i)
  | .float _ => 7
  | .text s => 13 + 2 * s.length
  | .blob b => 12 + 2 * b.length

/-- Big-endian byte string of length `n` for the value `v` (mod `2^(8n)`). -/
def beBytes (n : Nat) (v : Nat) : List Nat :=
  (List.range n).reverse.map fun k => v / 256 ^ k % 256

/-- Value of a big-endian byte string. -/
def beVal (bs : List Nat) : Nat :=
  bs.foldl (fun acc b => acc * 256 + b) 0

/-- Modelled from the spec: the body bytes of a value under its serial type. -/
def serialBody : SqliteValue → List Nat
  | .null => []
  | .integer i =>
    if i = 0 ∨ i = 1 then []
    else
      let n := intSerialBytes i
      beBytes n (i.emod (2 ^ (8 * n))).toNat
  | .float bits => beBytes 8 (bits % 2 ^ 64)
  | .text s => s
  | .blob b => b

/-- Modelled from the spec: a record is a sequence of typed values
(`tree::record::Record`). -/
structure Record where
  values : List SqliteValue
  deriving DecidableEq

/-- Modelled from the spec: the header size varint counts itself, so the
header size `n` for `h` bytes of serial types satisfies
`n = h + varintLen n`. -/
def headerSizeFor (h : Nat) : Nat :=
  if varintLen (h + 1) = 1 then h + 1
  else if varintLen (h + 2) ≤ 2 then h + 2
  else if varintLen (h + 3) ≤ 3 then h + 3
  else if varintLen (h + 4) ≤ 4 then h + 4
  else if varintLen (h + 5) ≤ 5 then h + 5
  else if varintLen (h + 6) ≤ 6 then h + 6
  else if varintLen (h + 7) ≤ 7 then h + 7
  else if varintLen (h + 8) ≤ 8 then h + 8
  else h + 9

/-- Modelled from the spec (§4.2): `Record::to_bytes` emits the header size,
then the serial-type varints, then the value bodies. -/
def Record.toBytes (r : Record) : List Nat :=
  let tv := (r.values.map fun v => varintEncode (serialType v)).flatten
  varintEncode (headerSizeFor tv.length) ++ tv ++ (r.values.map serialBody).flatten

/-- Modelled from the spec: parse the serial-type varints filling exactly the
header region; the fuel is spent one unit per varint. -/
def parseSerialTypes : Nat → List Nat → Except Err (List Nat)
  | _, [] => .ok []
  | 0, _ :: _ => .error .truncatedRecord
  | fuel + 1, bs => do
    let (t, used) ← varintDecode bs
    let rest ← parseSerialTypes fuel (bs.drop used)
    return t :: rest

/-- Modelled from the spec: decode one value body from the front of `bs`,
returning the value and the bytes consumed.  Fails with `TruncatedRecord`
when a declared length exceeds the input. -/
def parseBody (t : Nat) (bs : List Nat) : Except Err (SqliteValue × Nat) :=
  if t = 0 then .ok (.null, 0)
  else if t = 8 then .ok (.integer 0, 0)
  else if t = 9 then .ok (.integer 1, 0)
  else if t = 7 then
    if bs.length < 8 then .error .truncatedRecord
    else .ok (.float (beVal (bs.take 8)), 8)
  else if 1 ≤ t ∧ t ≤ 6 then
    let n := if t ≤ 4 then t else if t = 5 then 6 else 8
    if bs.length < n then .error .truncatedRecord
    else
      let v := beVal (bs.take n)
      let iv : Int := if v < 2 ^ (8 * n - 1) then (v : Int) else (v : Int) - 2 ^ (8 * n)
      .ok (.integer iv, n)
  else if t ≥ 12 ∧ t % 2 = 0 then
    let n := (t - 12) / 2
    if bs.length < n then .error .truncatedRecord else .ok (.blob (bs.take n), n)
  else if t ≥ 13 ∧ t % 2 = 1 then
    let n := (t - 13) / 2
    if bs.length < n then .error .truncatedRecord else .ok (.text (bs.take n), n)
  else .error .invalidData

/-- Modelled from the spec: decode the list of bodies for the given serial
types, returning the values and the total bytes consumed. -/
def parseBodies : List Nat → List Nat → Except Err (List SqliteValue × Nat)
  | [], _ => .ok ([], 0)
  | t :: ts, bs => do
    let (v, used) ← parseBody t bs
    let (vs, used2) ← parseBodies ts (bs.drop used)
    return (v :: vs, used + used2)

/-- Modelled from the spec (§4.2): `Record::from_bytes` inverts `to_bytes`,
returning the record and the number of bytes consumed. -/
def Record.fromBytes (bs : List Nat) : Except Err (Record × Nat) := do
  let (hs, c1) ← varintDecode bs
  if bs.length < hs ∨ hs < c1 then .error .truncatedRecord
  else do
    let typeBytes := (bs.drop c1).take (hs - c1)
    let types ← parseSerialTypes typeBytes.length typeBytes
    let (vals, usedBody) ← parseBodies types (bs.drop hs)
    return (⟨vals⟩, hs + usedBody)

/-! ## Key comparison (Modelled from the spec, §3 `KeyValue`) -/

/-- Modelled from the spec: the comparison rank of a key value:
Null < Integer/Float (numeric) < String < Blob. -/
def kvRank : SqliteValue → Nat
  | .null => 0
  | .integer _ => 1
  | .float _ => 1
  | .text _ => 2
  | .blob _ => 3

/-- Lexicographic byte-string comparison. -/
def bytesCompare : List Nat → List Nat → Ordering
  | [], [] => .eq
  | [], _ :: _ => .lt
  | _ :: _, [] => .gt
  | a :: as, b :: bs =>
    if a < b then .lt else if b < a then .gt else bytesCompare as bs

/-- Modelled from the spec: `KeyValue` comparison under SQLite collation:
class rank first, then numeric order for numbers and byte-wise order for
strings and blobs.  Exact float arithmetic is not representable here; a float
is ordered by its bit pattern, which no theorem below relies on. -/
def kvCompare (a b : SqliteValue) : Ordering :=
  if kvRank a < kvRank b then .lt
  else if kvRank b < kvRank a then .gt
  else
    match a, b with
    | .integer x, .integer y => compare x y
    | .integer x, .float y => compare (x * 2 ^ 64) (y : Int)
    | .float x, .integer y => compare (x : Int) (y * 2 ^ 64)
    | .float x, .float y => compare x y
    | .text x, .text y => bytesCompare x y
    | .blob x, .blob y => bytesCompare x y
    | _, _ => .eq

/-! ## Pages and cells (Modelled from the spec, §3) -/

/-- Modelled from the spec: the page subtype tag (`page::PageType`). -/
inductive PageType where
  | tableLeaf
  | tableInterior
  | indexLeaf
  | indexInterior
  | overflow
  | free
  deriving DecidableEq

/-- Modelled from the spec: a page type is a leaf B-Tree type. -/
def PageType.isLeaf : PageType → Bool
  | .tableLeaf => true
  | .indexLeaf => true
  | _ => false

/-- Modelled from the spec: `page::TableLeafCell`
(`payload_size:varint`, `row_id:varint`, local payload, optional overflow
page). -/
structure TableLeafCell where
  payload_size : Nat
  row_id : Int
  payload : List Nat
  overflow_page : Option Nat
  deriving DecidableEq

/-- Modelled from the spec: `page::TableInteriorCell`
(`left_child:u32`, `key:varint`). -/
structure TableInteriorCell where
  left_child_page : Nat
  key : Int
  deriving DecidableEq

/-- Modelled from the spec: `page::IndexLeafCell`. -/
structure IndexLeafCell where
  payload_size : Nat
  payload : List Nat
  overflow_page : Option Nat
  deriving DecidableEq

/-- Modelled from the spec: `page::IndexInteriorCell`. -/
structure IndexInteriorCell where
  left_child_page : Nat
  payload_size : Nat
  payload : List Nat
  overflow_page : Option Nat
  deriving DecidableEq

/-- Modelled from the spec: `page::BTreeCell`, the four cell variants. -/
inductive BTreeCell where
  | tableLeaf (c : TableLeafCell)
  | tableInterior (c : TableInteriorCell)
  | indexLeaf (c : IndexLeafCell)
  | indexInterior (c : IndexInteriorCell)
  deriving DecidableEq

/-- Modelled from the spec: the B-Tree page header fields the engine reads
and writes (`page_type`, `cell_count`, the interior rightmost-child
pointer).  Byte offsets within the page are not modelled; cells are held
structurally in logical order, which is what `cells`/`cell_indices` of the
source expose. -/
structure BTreePageData where
  page_type : PageType
  cell_count : Nat
  right_most_page : Option Nat
  cells : List BTreeCell
  deriving DecidableEq

/-- Modelled from the spec: a typed page (`page::Page`): a B-Tree page, an
overflow page (4-byte next pointer, 0 terminal, then raw data), or a page on
the freelist. -/
inductive Page where
  | btree (p : BTreePageData)
  | overflow (next_page : Nat) (data : List Nat)
  | free
  deriving DecidableEq

/-- Type tag of a stored page. -/
def Page.pageType : Page → PageType
  | .btree p => p.page_type
  | .overflow _ _ => .overflow
  | .free => .free

/-! ## Pager (Modelled from the spec, §4.4) -/

/-- Modelled from the spec: the `Pager` owns every page buffer, keyed by the
1-based page number, and knows `page_count`.  The freelist is stubbed in the
source ("the source stubs freelist operations", §9), so allocation always
extends the file: a fresh allocation gets page number `page_count + 1`.
`allocSchedule` injects the environment's I/O behaviour: each allocation
consumes one entry, and a `true` entry makes that allocation fail with
`IoError` (an empty schedule never fails). -/
structure Pager where
  pages : List (Nat × Page)
  page_count : Nat
  allocSchedule : List Bool
  deriving DecidableEq

/-- First entry for a page number in the page table. -/
def pagesLookup : List (Nat × Page) → Nat → Option Page
  | [], _ => none
  | e :: es, n => if e.1 = n then some e.2 else pagesLookup es n

/-- Replace the entry for a page number in the page table, appending a new
entry when the number is absent. -/
def pagesStore : List (Nat × Page) → Nat → Page → List (Nat × Page)
  | [], n, pg => [(n, pg)]
  | e :: es, n, pg => if e.1 = n then (n, pg) :: es else e :: pagesStore es n pg

/-- Look a page number up in the pager. -/
def Pager.lookup (p : Pager) (n : Nat) : Option Page :=
  pagesLookup p.pages n

/-- Store a page under a page number, replacing any existing entry. -/
def Pager.store (p : Pager) (n : Nat) (pg : Page) : Pager :=
  { p with pages := pagesStore p.pages n pg }

/-- Modelled from the spec: allocate a fresh page holding `pg`; consults the
failure schedule, else extends the file by one page and increments
`page_count`. -/
def Pager.alloc (p : Pager) (pg : Page) : Except Err Nat × Pager :=
  match p.allocSchedule with
  | b :: rest =>
    if b then (.error .ioError, { p with allocSchedule := rest })
    else
      let n := p.page_count + 1
      (.ok n, { (p.store n pg) with page_count := n, allocSchedule := rest })
  | [] =>
    let n := p.page_count + 1
    (.ok n, { (p.store n pg) with page_count := n })

/-- Modelled from the spec: `create_overflow_page(next, data) → n` allocates a
page and initializes its next-page pointer and payload. -/
def Pager.create_overflow_page (p : Pager) (next : Nat) (data : List Nat) :
    Except Err Nat × Pager :=
  p.alloc (.overflow next data)

/-- Modelled from the spec: `create_free_page(next)` makes a page on the
freelist.  The source comments ("For now, we just create a free page") show
it allocates a fresh free page rather than recycling the caller's page. -/
def Pager.create_free_page (p : Pager) (_next : Nat) : Except Err Nat × Pager :=
  p.alloc .free

/-- Modelled from the spec: `get_page(n, expected_type?)` reads page `n`,
failing with `CorruptFile` when the page is not allocated and with
`WrongPageType` when it does not match the expected type.  Reading is
observationally pure (the cache is not modelled). -/
def Pager.get_page (p : Pager) (n : Nat) (expected : Option PageType) :
    Except Err Page :=
  match p.lookup n with
  | none => .error .corruptFile
  | some pg =>
    match expected with
    | none => .ok pg
    | some t => if pg.pageType = t then .ok pg else .error .wrongPageType

/-! ## Cell factory (`src/tree/cell.rs`) -/

namespace BTreeCellFactory

/-- Embeds `BTreeCellFactory::max_local_payload`:
`min((usable_size - 12) * max_payload_fraction / 255, usable_size - 35)`. -/
def max_local_payload (usable_size : Nat) (max_payload_fraction : Nat) : Nat :=
  min ((usable_size - 12) * max_payload_fraction / 255) (usable_size - 35)

/-- Embeds `BTreeCellFactory::min_local_payload`:
`(usable_size - 12) * min_payload_fraction / 255`. -/
def min_local_payload (usable_size : Nat) (min_payload_fraction : Nat) : Nat :=
  (usable_size - 12) * min_payload_fraction / 255

/-- Embeds the shared local-size computation of
`create_table_leaf_cell` / `create_index_leaf_cell` /
`create_index_interior_cell`: all payload locally when it is at most
`max_local_payload`, otherwise `m + ((payload_size - m) % (usable_size - 4))`
with `m = min(min_local_payload, (usable_size - 35) / 4)`. -/
def localPayloadSize (payload_size max_local_payload min_local_payload
    usable_size : Nat) : Nat :=
  if payload_size ≤ max_local_payload then payload_size
  else
    let m := min min_local_payload ((usable_size - 35) / 4)
    if payload_size ≤ m then payload_size
    else m + (payload_size - m) % (usable_size - 4)

/-- Embeds `BTreeCellFactory::create_table_leaf_cell`.  The source wraps the
result in `io::Result` but never returns `Err`; the model returns the pair
directly: the cell (with `overflow_page = None`, patched later by the
B-Tree) and the overflow tail when the payload does not fit locally. -/
def create_table_leaf_cell (rowid : Int) (payload : List Nat)
    (max_local_payload min_local_payload usable_size : Nat) :
    BTreeCell × Option (List Nat) :=
  let payload_size := payload.length
  let local_payload_size :=
    localPayloadSize payload_size max_local_payload min_local_payload usable_size
  let local_payload := payload.take local_payload_size
  let overflow_payload :=
    if local_payload_size < payload_size then some (payload.drop local_payload_size)
    else none
  (.tableLeaf ⟨payload_size, rowid, local_payload, none⟩, overflow_payload)

/-- Embeds `BTreeCellFactory::create_table_interior_cell`. -/
def create_table_interior_cell (left_child_page : Nat) (key : Int) : BTreeCell :=
  .tableInterior ⟨left_child_page, key⟩

/-- Embeds `BTreeCellFactory::create_index_leaf_cell`. -/
def create_index_leaf_cell (payload : List Nat)
    (max_local_payload min_local_payload usable_size : Nat) :
    BTreeCell × Option (List Nat) :=
  let payload_size := payload.length
  let local_payload_size :=
    localPayloadSize payload_size max_local_payload min_local_payload usable_size
  let local_payload := payload.take local_payload_size
  let overflow_payload :=
    if local_payload_size < payload_size then some (payload.drop local_payload_size)
    else none
  (.indexLeaf ⟨payload_size, local_payload, none⟩, overflow_payload)

/-- Embeds `BTreeCellFactory::create_index_interior_cell`. -/
def create_index_interior_cell (left_child_page : Nat) (payload : List Nat)
    (max_local_payload min_local_payload usable_size : Nat) :
    BTreeCell × Option (List Nat) :=
  let payload_size := payload.length
  let local_payload_size :=
    localPayloadSize payload_size max_local_payload min_local_payload usable_size
  let local_payload := payload.take local_payload_size
  let overflow_payload :=
    if local_payload_size < payload_size then some (payload.drop local_payload_size)
    else none
  (.indexInterior ⟨left_child_page, payload_size, local_payload, none⟩,
    overflow_payload)

end BTreeCellFactory

/-! ## Node-level operations (Modelled from the spec, §4.6; `tree/node.rs` is
not among the provided sources) -/

/-- Unsigned 64-bit representation of a signed 64-bit value (two's
complement), used for varint sizes of keys. -/
def u64OfInt (i : Int) : Nat := (i.emod (2 ^ 64)).toNat

/-- Modelled from the spec: on-disk byte size of a cell, per the §3 cell
variant table (varints for sizes and keys, a 4-byte child or overflow
pointer, and the local payload). -/
def cellSize : BTreeCell → Nat
  | .tableLeaf c =>
    varintLen c.payload_size + varintLen (u64OfInt c.row_id) + c.payload.length +
      (if c.overflow_page.isSome then 4 else 0)
  | .tableInterior c => 4 + varintLen (u64OfInt c.key)
  | .indexLeaf c =>
    varintLen c.payload_size + c.payload.length +
      (if c.overflow_page.isSome then 4 else 0)
  | .indexInterior c =>
    4 + varintLen c.payload_size + c.payload.length +
      (if c.overflow_page.isSome then 4 else 0)

/-- Modelled from the spec (§3): page header bytes — 8 for leaves, 12 for
interiors. -/
def headerBytes (t : PageType) : Nat := if t.isLeaf then 8 else 12

/-- Total byte cost of a cell list within a page: cell bodies plus the 2-byte
cell pointers. -/
def cellsBytes (cells : List BTreeCell) : Nat :=
  (cells.map cellSize).sum + 2 * cells.length

/-- Modelled from the spec (§4.6): the cell list fits within a page when the
bodies, pointer array and page header fit in the usable size. -/
def fitsIn (usable : Nat) (t : PageType) (cells : List BTreeCell) : Bool :=
  cellsBytes cells + headerBytes t ≤ usable

/-- Modelled from the spec: `node::extract_key_from_payload` — the key of an
index cell is the `KeyValue` of the leading column of its payload record. -/
def extract_key_from_payload (payload : List Nat) : Except Err SqliteValue := do
  let (r, _) ← Record.fromBytes payload
  match r.values with
  | [] => .error .invalidData
  | v :: _ => .ok v

/-- Table-key of a table cell (rowid of a leaf, key of an interior). -/
def cellKeyTable : BTreeCell → Option Int
  | .tableLeaf c => some c.row_id
  | .tableInterior c => some c.key
  | _ => none

/-- Payload of an index cell. -/
def cellPayloadIdx : BTreeCell → Option (List Nat)
  | .indexLeaf c => some c.payload
  | .indexInterior c => some c.payload
  | _ => none

/-- Child pointer of an interior cell; other variants are the source's
`unreachable!`, modelled as an error. -/
def cellLeftChild : BTreeCell → Except Err Nat
  | .tableInterior c => .ok c.left_child_page
  | .indexInterior c => .ok c.left_child_page
  | _ => .error .invalidData

/-- Modelled from the spec: ordering between two cells of the same node —
table cells by integer key, index cells by the extracted `KeyValue`. -/
def cellCompare (a b : BTreeCell) : Except Err Ordering :=
  match cellKeyTable a, cellKeyTable b with
  | some x, some y => .ok (compare x y)
  | _, _ =>
    match cellPayloadIdx a, cellPayloadIdx b with
    | some pa, some pb => do
      let ka ← extract_key_from_payload pa
      let kb ← extract_key_from_payload pb
      .ok (kvCompare ka kb)
    | _, _ => .error .invalidData

/-- Modelled from the spec: the sort position of a new cell within the
ordered cell array — the first index whose cell is not smaller. -/
def insertPos (c : BTreeCell) : List BTreeCell → Except Err Nat
  | [] => .ok 0
  | d :: ds => do
    let o ← cellCompare c d
    if o = .gt then
      let n ← insertPos c ds
      return n + 1
    else
      return 0

/-- Insert an element at a position of a list. -/
def listInsertAt : Nat → BTreeCell → List BTreeCell → List BTreeCell
  | 0, a, l => a :: l
  | _ + 1, a, [] => [a]
  | n + 1, a, x :: xs => x :: listInsertAt n a xs

/-- Modelled from the spec: the i64 a node reports as the median key of a
split (`insert_cell_ordered` returns `Option<i64>`).  For table cells it is
the integer key; for index cells the source's convention (seen in
`borrow_from_sibling`) maps `Integer` to itself and casts or hashes other
values — the float cast and `DefaultHasher` are not representable here and
are modelled as `0`; no theorem in this file depends on those branches. -/
def cellMedianKey (c : BTreeCell) : Except Err Int :=
  match cellKeyTable c with
  | some k => .ok k
  | none =>
    match cellPayloadIdx c with
    | some p => do
      let kv ← extract_key_from_payload p
      match kv with
      | .integer i => .ok i
      | _ => .ok 0
    | none => .error .invalidData

/-- B-Tree page content of a stored page, or the errors of
`Pager::get_page`. -/
def nodeData (p : Pager) (n : Nat) : Except Err BTreePageData :=
  match p.lookup n with
  | some (.btree d) => .ok d
  | some _ => .error .wrongPageType
  | none => .error .corruptFile

/-- Cell at index `i` of a page (`get_cell_owned`); out of range is the
source's panic, modelled as an error. -/
def BTreePageData.getCell (d : BTreePageData) (i : Nat) : Except Err BTreeCell :=
  match d.cells[i]? with
  | some c => .ok c
  | none => .error .invalidData

/-- Modelled from the spec: `get_right_most_child` of an interior node. -/
def BTreePageData.rightMostChild (d : BTreePageData) : Except Err Nat :=
  match d.right_most_page with
  | some r => .ok r
  | none => .error .invalidData

/-- Modelled from the spec: `BTreeNode::open(page, type)` validates that the
page exists and has the expected type. -/
def nodeOpen (p : Pager) (n : Nat) (t : PageType) : Except Err Unit :=
  match p.get_page n (some t) with
  | .ok _ => .ok ()
  | .error e => .error e

/-- Modelled from the spec (§4.6): table-interior navigation
(`find_table_key`) — descend to the left child of the first cell whose key is
at least the rowid, or to the rightmost child when the rowid exceeds every
key. -/
def tableInteriorChild (d : BTreePageData) (rowid : Int) : Except Err Nat :=
  go d.cells
where
  go : List BTreeCell → Except Err Nat
    | [] => d.rightMostChild
    | .tableInterior c :: cs =>
      if rowid ≤ c.key then .ok c.left_child_page else go cs
    | _ :: _ => .error .invalidData

/-- Modelled from the spec (§4.6): search within a table leaf
(`find_table_rowid`) — binary search over the ordered cell array, reported as
the first index whose rowid is at least the target, and whether the target
was found there. -/
def find_table_rowid (cells : List BTreeCell) (rowid : Int) :
    Except Err (Bool × Nat) :=
  match cells with
  | [] => .ok (false, 0)
  | .tableLeaf c :: cs =>
    if rowid ≤ c.row_id then .ok (c.row_id = rowid, 0)
    else do
      let (f, i) ← find_table_rowid cs rowid
      return (f, i + 1)
  | _ :: _ => .error .invalidData

/-- Modelled from the spec (§4.6): search within an index node
(`find_index_key` at node level) — the first index whose extracted key is at
least the target, and whether the target was found there. -/
def node_find_index_key (cells : List BTreeCell) (key : SqliteValue) :
    Except Err (Bool × Nat) :=
  match cells with
  | [] => .ok (false, 0)
  | c :: cs => do
    let p ←
      match cellPayloadIdx c with
      | some p => Except.ok p
      | none => Except.error Err.invalidData
    let k ← extract_key_from_payload p
    match kvCompare key k with
    | .lt => .ok (false, 0)
    | .eq => .ok (true, 0)
    | .gt => do
      let (f, i) ← node_find_index_key cs key
      return (f, i + 1)

/-- Modelled from the spec (§4.6): `insert_cell_ordered` — place the cell at
its sort position; when the page no longer fits, split it: with `K` cells the
left node keeps cells `[0..s)` for `s = ⌈K/2⌉`, the right sibling (a freshly
allocated page of the same subtype) takes `[s..K)`, and the median is the
key of cell `s-1`.  For an interior split the left sibling inherits the
original's rightmost pointer (the spec leaves the right sibling's rightmost
unstated; the model copies the original's — no theorem exercises an interior
split).  Returns `(split, median_key, new_sibling_page)`. -/
def insert_cell_ordered (p : Pager) (usable : Nat) (n : Nat) (cell : BTreeCell) :
    Except Err (Bool × Option Int × Option Nat) × Pager :=
  match nodeData p n with
  | .error e => (.error e, p)
  | .ok d =>
    match insertPos cell d.cells with
    | .error e => (.error e, p)
    | .ok pos =>
      let newCells := listInsertAt pos cell d.cells
      if fitsIn usable d.page_type newCells then
        (.ok (false, none, none),
          p.store n (.btree { d with cells := newCells,
                                     cell_count := d.cell_count + 1 }))
      else
        let K := newCells.length
        let s := (K + 1) / 2
        match newCells[s - 1]? with
        | none => (.error .invalidData, p)
        | some medianCell =>
          match cellMedianKey medianCell with
          | .error e => (.error e, p)
          | .ok median =>
            let leftCells := newCells.take s
            let rightCells := newCells.drop s
            let rightRm := if d.page_type.isLeaf then none else d.right_most_page
            match p.alloc (.btree ⟨d.page_type, rightCells.length, rightRm,
                rightCells⟩) with
            | (.error e, p1) => (.error e, p1)
            | (.ok newPage, p1) =>
              (.ok (true, some median, some newPage),
                p1.store n (.btree { d with cells := leftCells,
                                            cell_count := leftCells.length }))

/-! ## The B-Tree (`src/tree/btree.rs`) -/

/-- Embeds `btree::TreeType`. -/
inductive TreeType where
  | Table
  | Index
  deriving DecidableEq

/-- Embeds the `BTree` struct fields (root page, tree type, and the page
geometry parameters). -/
structure BTree where
  root_page : Nat
  tree_type : TreeType
  page_size : Nat
  reserved_space : Nat
  max_payload_fraction : Nat
  min_payload_fraction : Nat
  deriving DecidableEq

/-- Embeds `BTree::usable_page_size`. -/
def BTree.usable_page_size (t : BTree) : Nat := t.page_size - t.reserved_space

/-- Embeds `BTree::max_local_payload`. -/
def BTree.max_local_payload (t : BTree) : Nat :=
  BTreeCellFactory.max_local_payload t.usable_page_size t.max_payload_fraction

/-- Embeds `BTree::min_local_payload`. -/
def BTree.min_local_payload (t : BTree) : Nat :=
  BTreeCellFactory.min_local_payload t.usable_page_size t.min_payload_fraction

/-- The mutable state a `BTree` method works on: the tree handle (whose
`root_page` can change) and the pager behind the `Rc<RefCell<Pager>>`. -/
structure TState where
  tree : BTree
  pager : Pager
  deriving DecidableEq

/-- Embeds `BTree::get_page_type`: the page type of a B-Tree page, or an
error when the page is absent or not a B-Tree page. -/
def get_page_type (p : Pager) (n : Nat) : Except Err PageType :=
  match p.get_page n none with
  | .ok (.btree d) => .ok d.page_type
  | .ok _ => .error .invalidData
  | .error e => .error e

/-- Fuelled chunking of a byte string into runs of `k` bytes (the source's
`data.chunks(data_per_page)`); the fuel is the list length, which suffices
whenever `k ≥ 1`. -/
def chunksGo : Nat → Nat → List Nat → List (List Nat)
  | _, _, [] => []
  | 0, _, l => [l]
  | fuel + 1, k, l@(_ :: _) => l.take k :: chunksGo fuel k (l.drop k)

/-- Chunks of size `k` of a byte string. -/
def chunksOf (k : Nat) (l : List Nat) : List (List Nat) := chunksGo l.length k l

/-- Embeds the reverse-order page creation loop of
`BTree::create_overflow_chain` (`for i in (0..chunk_count - 1).rev()`):
allocate a page per chunk, each linking to the previously created one. -/
def chainRevGo (p : Pager) : List (List Nat) → Nat → Except Err Nat × Pager
  | [], next => (.ok next, p)
  | c :: rest, next =>
    match p.create_overflow_page next c with
    | (.ok page, p1) => chainRevGo p1 rest page
    | (.error e, p1) => (.error e, p1)

/-- Embeds `BTree::create_overflow_chain`: split the data into chunks of
`page_size - 4` bytes, fail with the "No data to store in overflow chain"
error on zero chunks, create the terminal page first and the rest in reverse
order, and return the head page.  A mid-loop allocation failure surfaces
immediately; the state reflects the pages created so far. -/
def BTree.create_overflow_chain (t : BTree) (p : Pager) (data : List Nat) :
    Except Err Nat × Pager :=
  let data_per_page := t.page_size - 4
  let chunks := chunksOf data_per_page data
  let chunk_count := chunks.length
  if chunk_count = 0 then (.error .noOverflowData, p)
  else
    match p.create_overflow_page 0 (chunks.getLastD []) with
    | (.error e, p1) => (.error e, p1)
    | (.ok last_page, p1) =>
      if chunk_count = 1 then (.ok last_page, p1)
      else chainRevGo p1 chunks.dropLast.reverse last_page

/-- Embeds the loop of `BTree::read_overflow_chain`: follow `next_page`
pointers until 0, concatenating each page's data.  The source loop has no
cycle detection; the fuel bounds how many iterations the model unrolls. -/
def readChainGo (p : Pager) : Nat → Nat → List Nat → Except Err (List Nat)
  | _, 0, acc => .ok acc
  | 0, _ + 1, _ => .error .fuelOut
  | fuel + 1, cur + 1, acc =>
    match p.get_page (cur + 1) (some .overflow) with
    | .error e => .error e
    | .ok (.overflow next data) => readChainGo p fuel next (acc ++ data)
    | .ok _ => .error .invalidData

/-- Embeds `BTree::read_overflow_chain`. -/
def read_overflow_chain (p : Pager) (fuel : Nat) (first_page : Nat) :
    Except Err (List Nat) :=
  readChainGo p fuel first_page []

/-- Embeds the loop of `BTree::free_overflow_chain`: walk the chain and call
`create_free_page(0)` once per chain page (the source's comments note the
walked page itself is not recycled). -/
def freeChainGo (p : Pager) : Nat → Nat → Except Err Unit × Pager
  | _, 0 => (.ok (), p)
  | 0, _ + 1 => (.error .fuelOut, p)
  | fuel + 1, cur + 1 =>
    match p.get_page (cur + 1) (some .overflow) with
    | .error e => (.error e, p)
    | .ok (.overflow next _) =>
      match p.create_free_page 0 with
      | (.ok _, p1) => freeChainGo p1 fuel next
      | (.error e, p1) => (.error e, p1)
    | .ok _ => (.error .invalidData, p)

/-- Embeds `BTree::free_overflow_chain`. -/
def free_overflow_chain (p : Pager) (fuel : Nat) (first_page : Nat) :
    Except Err Unit × Pager :=
  freeChainGo p fuel first_page

/-- Embeds the loop of `BTree::find_leaf_for_insert`: descend from the root
by table-key navigation, recording the path of interior pages. -/
def findLeafGo (p : Pager) : Nat → Nat → List Nat → Int →
    Except Err (Nat × List Nat)
  | 0, _, _, _ => .error .fuelOut
  | fuel + 1, cur, path, rowid =>
    match get_page_type p cur with
    | .error e => .error e
    | .ok t =>
      if t.isLeaf then .ok (cur, path)
      else
        match nodeData p cur with
        | .error e => .error e
        | .ok d =>
          match tableInteriorChild d rowid with
          | .error e => .error e
          | .ok child => findLeafGo p fuel child (path ++ [cur]) rowid

/-- Embeds `BTree::find_leaf_for_insert`. -/
def BTree.find_leaf_for_insert (t : BTree) (p : Pager) (fuel : Nat) (key : Int) :
    Except Err (Nat × List Nat) :=
  findLeafGo p fuel t.root_page [] key

/-- Embeds the descent loop of `BTree::find` (the same navigation as
`find_leaf_for_insert`, without recording the path). -/
def findDescendGo (p : Pager) : Nat → Nat → Int → Except Err Nat
  | 0, _, _ => .error .fuelOut
  | fuel + 1, cur, rowid =>
    match get_page_type p cur with
    | .error e => .error e
    | .ok t =>
      if t.isLeaf then .ok cur
      else
        match nodeData p cur with
        | .error e => .error e
        | .ok d =>
          match tableInteriorChild d rowid with
          | .error e => .error e
          | .ok child => findDescendGo p fuel child rowid

/-- Embeds `BTree::find`: reject index trees, descend to the leaf, search the
leaf for the rowid, and on a hit reconstruct the payload — the local bytes
extended with the overflow chain contents when `overflow_page` is set — and
deserialize it as a record. -/
def BTree.find (t : BTree) (p : Pager) (fuel : Nat) (rowid : Int) :
    Except Err (Option Record) :=
  if t.tree_type ≠ .Table then .error .wrongTreeType
  else
    match findDescendGo p fuel t.root_page rowid with
    | .error e => .error e
    | .ok leaf =>
      match nodeData p leaf with
      | .error e => .error e
      | .ok d =>
        match find_table_rowid d.cells rowid with
        | .error e => .error e
        | .ok (found, idx) =>
          if !found then .ok none
          else
            match d.getCell idx with
            | .error e => .error e
            | .ok (.tableLeaf lc) =>
              let withChain : Except Err (List Nat) :=
                match lc.overflow_page with
                | some op =>
                  match read_overflow_chain p fuel op with
                  | .error e => .error e
                  | .ok tail => .ok (lc.payload ++ tail)
                | none => .ok lc.payload
              match withChain with
              | .error e => .error e
              | .ok payload =>
                match Record.fromBytes payload with
                | .error e => .error e
                | .ok (record, _) => .ok (some record)
            | .ok _ => .error .invalidData

/-- Left child of an index-interior cell; other variants are the source's
`unreachable!`, modelled as an error. -/
def indexCellLeftChild : BTreeCell → Except Err Nat
  | .indexInterior c => .ok c.left_child_page
  | _ => .error .invalidData

/-- Embeds the four-way child choice of the descent loop in
`BTree::find_index_key` (and of `get_path_to_leaf`): on a hit or between two
keys follow the left child of cell `idx`, below all keys the left child of
cell `0`, above all keys the rightmost child. -/
def indexChildChoice (d : BTreePageData) (found : Bool) (idx : Nat) :
    Except Err Nat :=
  if found then do indexCellLeftChild (← d.getCell idx)
  else if idx = 0 then do indexCellLeftChild (← d.getCell 0)
  else if d.cell_count ≤ idx then d.rightMostChild
  else do indexCellLeftChild (← d.getCell idx)

/-- Embeds the descent loop of `BTree::find_index_key`. -/
def findIndexDescendGo (p : Pager) : Nat → Nat → SqliteValue → Except Err Nat
  | 0, _, _ => .error .fuelOut
  | fuel + 1, cur, key =>
    match get_page_type p cur with
    | .error e => .error e
    | .ok t =>
      if t.isLeaf then .ok cur
      else
        match nodeData p cur with
        | .error e => .error e
        | .ok d =>
          match node_find_index_key d.cells key with
          | .error e => .error e
          | .ok (found, idx) =>
            match indexChildChoice d found idx with
            | .error e => .error e
            | .ok child => findIndexDescendGo p fuel child key

/-- Embeds `BTree::find_index_key`: reject table trees, descend, then search
the leaf, returning `(found, leaf_page, index_in_leaf)`. -/
def BTree.find_index_key (t : BTree) (p : Pager) (fuel : Nat) (key : SqliteValue) :
    Except Err (Bool × Nat × Nat) :=
  if t.tree_type ≠ .Index then .error .wrongTreeType
  else
    match findIndexDescendGo p fuel t.root_page key with
    | .error e => .error e
    | .ok leaf =>
      match nodeData p leaf with
      | .error e => .error e
      | .ok d =>
        match node_find_index_key d.cells key with
        | .error e => .error e
        | .ok (found, idx) => .ok (found, leaf, idx)

/-- Embeds the loop of `BTree::get_path_to_leaf`: walk down towards
`leaf_page` by index-key navigation, returning the interior path when the
next child is the target, and failing with "Could not find path to leaf"
when a leaf is reached otherwise. -/
def getPathGo (p : Pager) : Nat → Nat → List Nat → Nat → SqliteValue →
    Except Err (List Nat)
  | 0, _, _, _, _ => .error .fuelOut
  | fuel + 1, cur, path, leafPage, key =>
    match get_page_type p cur with
    | .error e => .error e
    | .ok t =>
      if t.isLeaf then .error .invalidData
      else
        let path := path ++ [cur]
        match nodeData p cur with
        | .error e => .error e
        | .ok d =>
          match node_find_index_key d.cells key with
          | .error e => .error e
          | .ok (found, idx) =>
            match indexChildChoice d found idx with
            | .error e => .error e
            | .ok child =>
              if child = leafPage then .ok path
              else
                match get_page_type p child with
                | .error e => .error e
                | .ok ct =>
                  if ct.isLeaf then .error .invalidData
                  else getPathGo p fuel child path leafPage key

/-- Embeds `BTree::get_path_to_leaf` (the root itself has an empty path). -/
def BTree.get_path_to_leaf (t : BTree) (p : Pager) (fuel : Nat)
    (leaf_page : Nat) (key : SqliteValue) : Except Err (List Nat) :=
  if leaf_page = t.root_page then .ok []
  else getPathGo p fuel t.root_page [] leaf_page key

/-- Embeds the parent-cell construction shared verbatim by
`BTree::propagate_split` (lines 913–941) and `BTree::create_new_root`
(lines 990–1018): for a table tree, a table-interior cell carrying the
median key; for an index tree, an index-interior cell built from
`let payload = vec![];` — the source's "Simplified - should be proper
payload" — with the (dead, since an empty payload always fits locally)
overflow-chain branch. -/
def parentSeparatorCell (s : TState) (left_page : Nat) (median_key : Int) :
    Except Err BTreeCell × TState :=
  if s.tree.tree_type = .Table then
    (.ok (BTreeCellFactory.create_table_interior_cell left_page median_key), s)
  else
    let payload : List Nat := []
    let (cell, overflow) := BTreeCellFactory.create_index_interior_cell left_page
        payload s.tree.max_local_payload s.tree.min_local_payload
        s.tree.usable_page_size
    match overflow with
    | some od =>
      match cell with
      | .indexInterior ic =>
        match s.tree.create_overflow_chain s.pager od with
        | (.ok op, p1) =>
          (.ok (.indexInterior { ic with overflow_page := some op }),
            { s with pager := p1 })
        | (.error e, p1) => (.error e, { s with pager := p1 })
      | _ => (.error .invalidData, s)
    | none => (.ok cell, s)

/-- Embeds `BTree::create_new_root`: allocate a fresh interior page whose
rightmost child is the right sibling, seed it with the separator cell
pointing at the left sibling, and update the tree's `root_page`. -/
def TState.create_new_root (s : TState) (left_page right_page : Nat)
    (median_key : Int) : Except Err Unit × TState :=
  let root_type :=
    if s.tree.tree_type = .Table then PageType.tableInterior
    else PageType.indexInterior
  match s.pager.alloc (.btree ⟨root_type, 0, some right_page, []⟩) with
  | (.error e, p1) => (.error e, { s with pager := p1 })
  | (.ok new_root, p1) =>
    match parentSeparatorCell { s with pager := p1 } left_page median_key with
    | (.error e, s2) => (.error e, s2)
    | (.ok cell, s2) =>
      match nodeData s2.pager new_root with
      | .error e => (.error e, s2)
      | .ok d =>
        (.ok (), { tree := { s2.tree with root_page := new_root },
                   pager := s2.pager.store new_root
                     (.btree { d with cells := [cell], cell_count := 1 }) })

/-- Embeds the recursion of `BTree::propagate_split` on the reversed path:
the source pops the parent from the end of the path vector at each step; the
worker consumes the reversed path from the front, which is the same
traversal.  With an exhausted path, promote a new root; otherwise build the
separator cell, unconditionally point the parent's rightmost child at the
new right sibling, insert the separator into the parent, and recurse when
the parent itself splits. -/
def propagateSplitGo : TState → Nat → Nat → Int → List Nat →
    Except Err Unit × TState
  | s, left_page, right_page, median_key, [] =>
    s.create_new_root left_page right_page median_key
  | s, left_page, right_page, median_key, parent_page :: rrest =>
    let parent_type :=
      if s.tree.tree_type = .Table then PageType.tableInterior
      else PageType.indexInterior
    match nodeOpen s.pager parent_page parent_type with
    | .error e => (.error e, s)
    | .ok () =>
      match parentSeparatorCell s left_page median_key with
      | (.error e, s1) => (.error e, s1)
      | (.ok cell, s1) =>
        match nodeData s1.pager parent_page with
        | .error e => (.error e, s1)
        | .ok pd =>
          let p2 := s1.pager.store parent_page
            (.btree { pd with right_most_page := some right_page })
          match insert_cell_ordered p2 s1.tree.usable_page_size parent_page cell with
          | (.error e, p3) => (.error e, { s1 with pager := p3 })
          | (.ok (false, _, _), p3) => (.ok (), { s1 with pager := p3 })
          | (.ok (true, m, np), p3) =>
            match m, np with
            | some new_median, some new_parent =>
              propagateSplitGo { s1 with pager := p3 } parent_page
                new_parent new_median rrest
            | _, _ => (.error .invalidData, { s1 with pager := p3 })

/-- Embeds `BTree::propagate_split` (see `propagateSplitGo`). -/
def TState.propagate_split (s : TState) (left_page right_page : Nat)
    (median_key : Int) (path : List Nat) : Except Err Unit × TState :=
  propagateSplitGo s left_page right_page median_key path.reverse

/-- Embeds the leaf-insertion tail of `BTree::insert`: descend recording the
path, open the leaf, insert ordered, and propagate on a split. -/
def TState.insertLeafStep (s : TState) (fuel : Nat) (rowid : Int)
    (cell : BTreeCell) : Except Err Unit × TState :=
  match s.tree.find_leaf_for_insert s.pager fuel rowid with
  | .error e => (.error e, s)
  | .ok (leaf_page, path) =>
    match nodeOpen s.pager leaf_page .tableLeaf with
    | .error e => (.error e, s)
    | .ok () =>
      match insert_cell_ordered s.pager s.tree.usable_page_size leaf_page cell with
      | (.error e, p1) => (.error e, { s with pager := p1 })
      | (.ok (false, _, _), p1) => (.ok (), { s with pager := p1 })
      | (.ok (true, m, np), p1) =>
        match m, np with
        | some median, some new_page =>
          TState.propagate_split { s with pager := p1 } leaf_page new_page
            median path
        | _, _ => (.error .invalidData, { s with pager := p1 })

/-- Embeds `BTree::insert`: reject index trees, serialize the record, build
the leaf cell, allocate an overflow chain for the tail when the factory
returns one and patch the cell's `overflow_page`, then insert at the target
leaf and propagate any split. -/
def TState.insert (s : TState) (fuel : Nat) (rowid : Int) (record : Record) :
    Except Err Unit × TState :=
  if s.tree.tree_type ≠ .Table then (.error .wrongTreeType, s)
  else
    let payload := record.toBytes
    let (cell0, overflow_data) := BTreeCellFactory.create_table_leaf_cell rowid
        payload s.tree.max_local_payload s.tree.min_local_payload
        s.tree.usable_page_size
    match overflow_data with
    | none => s.insertLeafStep fuel rowid cell0
    | some od =>
      match cell0 with
      | .tableLeaf lc =>
        match s.tree.create_overflow_chain s.pager od with
        | (.error e, p1) => (.error e, { s with pager := p1 })
        | (.ok op, p1) =>
          TState.insertLeafStep { s with pager := p1 } fuel rowid
            (.tableLeaf { lc with overflow_page := some op })
      | _ => (.error .invalidData, s)

/-- Embeds the leaf-insertion tail of `BTree::insert_index`: descend by key,
open the leaf, insert ordered, and on a split compute the path with
`get_path_to_leaf` and propagate. -/
def TState.insertIndexLeafStep (s : TState) (fuel : Nat)
    (key_value : SqliteValue) (cell : BTreeCell) : Except Err Unit × TState :=
  match s.tree.find_index_key s.pager fuel key_value with
  | .error e => (.error e, s)
  | .ok (_, leaf_page, _) =>
    match nodeOpen s.pager leaf_page .indexLeaf with
    | .error e => (.error e, s)
    | .ok () =>
      match insert_cell_ordered s.pager s.tree.usable_page_size leaf_page cell with
      | (.error e, p1) => (.error e, { s with pager := p1 })
      | (.ok (false, _, _), p1) => (.ok (), { s with pager := p1 })
      | (.ok (true, m, np), p1) =>
        match m, np with
        | some median, some new_page =>
          match s.tree.get_path_to_leaf p1 fuel leaf_page key_value with
          | .error e => (.error e, { s with pager := p1 })
          | .ok path =>
            TState.propagate_split { s with pager := p1 } leaf_page new_page
              median path
        | _, _ => (.error .invalidData, { s with pager := p1 })

/-- Embeds `BTree::insert_index`: reject table trees, extract the comparison
key from the key bytes, append the rowid record to form the payload, build
the index leaf cell, patch its overflow chain when needed, and insert. -/
def TState.insert_index (s : TState) (fuel : Nat) (key : List Nat)
    (rowid : Int) : Except Err Unit × TState :=
  if s.tree.tree_type ≠ .Index then (.error .wrongTreeType, s)
  else
    match extract_key_from_payload key with
    | .error e => (.error e, s)
    | .ok key_value =>
      let rowid_bytes := Record.toBytes ⟨[.integer rowid]⟩
      let payload := key ++ rowid_bytes
      let (cell0, overflow_data) := BTreeCellFactory.create_index_leaf_cell
          payload s.tree.max_local_payload s.tree.min_local_payload
          s.tree.usable_page_size
      match overflow_data with
      | none => s.insertIndexLeafStep fuel key_value cell0
      | some od =>
        match cell0 with
        | .indexLeaf lc =>
          match s.tree.create_overflow_chain s.pager od with
          | (.error e, p1) => (.error e, { s with pager := p1 })
          | (.ok op, p1) =>
            TState.insertIndexLeafStep { s with pager := p1 } fuel key_value
              (.indexLeaf { lc with overflow_page := some op })
        | _ => (.error .invalidData, s)

/-- First index (among `remaining` cells starting at `i`) whose left child is
`node_page` — the scanning loops of `find_siblings` and
`find_separator_index`. -/
def findChildIdxGo (d : BTreePageData) (node_page : Nat) :
    Nat → Nat → Except Err (Option Nat)
  | _, 0 => .ok none
  | i, r + 1 => do
    let c ← d.getCell i
    let child ← cellLeftChild c
    if child = node_page then return (some i)
    else findChildIdxGo d node_page (i + 1) r

/-- Embeds `BTree::find_siblings`: locate `node_page` among the parent's
children (position `cell_count` when it is the rightmost child), then report
the left sibling (left child of the previous cell) and the right sibling as
the source computes them. -/
def find_siblings (p : Pager) (parent_page node_page : Nat) :
    Except Err (Option Nat × Option Nat) := do
  let d ← nodeData p parent_page
  let cell_count := d.cell_count
  if cell_count = 0 then return (none, none)
  else do
    let rightmost ← d.rightMostChild
    let pos ←
      if rightmost = node_page then pure cell_count
      else do
        match (← findChildIdxGo d node_page 0 cell_count) with
        | some i => pure i
        | none => Except.error Err.invalidData
    let left_sibling ←
      if 0 < pos then
        if pos = cell_count then do
          pure (some (← cellLeftChild (← d.getCell (cell_count - 1))))
        else do
          pure (some (← cellLeftChild (← d.getCell (pos - 1))))
      else pure none
    let right_sibling ←
      if pos < cell_count then
        if pos = 0 then do
          pure (some (← cellLeftChild (← d.getCell 0)))
        else do
          pure (some (← cellLeftChild (← d.getCell pos)))
      else pure none
    return (left_sibling, right_sibling)

/-- Embeds `BTree::find_separator_index`: the separator between `child_page`
and its neighbour in the parent — the last cell when the child is the
rightmost, else the cell whose left child it is (or the previous one when
the child is on the right of the separator). -/
def find_separator_index (p : Pager) (parent_page child_page : Nat)
    (isLeft : Bool) : Except Err Nat := do
  let d ← nodeData p parent_page
  let cell_count := d.cell_count
  let rightmost ← d.rightMostChild
  if child_page = rightmost then
    if isLeft then return (cell_count - 1)
    else Except.error Err.invalidData
  else
    match (← findChildIdxGo d child_page 0 cell_count) with
    | some i =>
      if isLeft then return i
      else if i = 0 then Except.error Err.invalidData
      else return (i - 1)
    | none => Except.error Err.invalidData

/-- Embeds the `new_separator` computation of `BTree::borrow_from_sibling`:
the borrowed cell's rowid for table trees; for index trees the extracted
key's integer, or the source's float cast / `DefaultHasher` value for other
key classes — neither is representable here and both are modelled as `0`
(no theorem depends on those branches). -/
def borrowNewSeparator (tree_type : TreeType) (c : BTreeCell) :
    Except Err Int :=
  match tree_type, c with
  | .Table, .tableLeaf lc => .ok lc.row_id
  | .Index, .indexLeaf lc => do
    let kv ← extract_key_from_payload lc.payload
    match kv with
    | .integer i => .ok i
    | _ => .ok 0
  | _, _ => .error .invalidData

/-- Embeds the separator update of `BTree::borrow_from_sibling`: for a table
tree overwrite the key of the parent's separator cell; for an index tree the
source does nothing ("This is simplified"). -/
def updateSeparatorKey (p : Pager) (tree_type : TreeType) (parent_page : Nat)
    (idx : Nat) (newSep : Int) : Except Err Unit × Pager :=
  match nodeData p parent_page with
  | .error e => (.error e, p)
  | .ok d =>
    match tree_type with
    | .Table =>
      match d.cells[idx]? with
      | some (.tableInterior ic) =>
        (.ok (), p.store parent_page (.btree { d with
          cells := d.cells.set idx (.tableInterior { ic with key := newSep }) }))
      | some _ => (.error .invalidData, p)
      | none => (.error .invalidData, p)
    | .Index => (.ok (), p)

/-- Embeds `BTree::borrow_from_sibling`: refuse when the sibling would drop
to the minimum cell count (1); otherwise move the sibling's extremal cell
(rightmost when borrowing from the left, leftmost otherwise) into the target,
updating the parent's separator key on the way. -/
def TState.borrow_from_sibling (s : TState) (target_page : Nat)
    (target_type : PageType) (sibling_page parent_page : Nat)
    (from_left : Bool) : Except Err Bool × TState :=
  let min_cell_count := 1
  let sibling_type := target_type
  match nodeOpen s.pager sibling_page sibling_type with
  | .error e => (.error e, s)
  | .ok () =>
    match nodeData s.pager sibling_page with
    | .error e => (.error e, s)
    | .ok sd =>
      if sd.cell_count ≤ min_cell_count then (.ok false, s)
      else
        let parent_type :=
          if s.tree.tree_type = .Table then PageType.tableInterior
          else PageType.indexInterior
        match nodeOpen s.pager parent_page parent_type with
        | .error e => (.error e, s)
        | .ok () =>
          let cellIdx := if from_left then sd.cell_count - 1 else 0
          match sd.getCell cellIdx with
          | .error e => (.error e, s)
          | .ok sibling_cell =>
            let newSibCells :=
              if from_left then sd.cells.dropLast else sd.cells.eraseIdx 0
            let p1 := s.pager.store sibling_page
              (.btree { sd with cells := newSibCells,
                                cell_count := sd.cell_count - 1 })
            match find_separator_index p1 parent_page target_page from_left with
            | .error e => (.error e, { s with pager := p1 })
            | .ok sep_idx =>
              match borrowNewSeparator s.tree.tree_type sibling_cell with
              | .error e => (.error e, { s with pager := p1 })
              | .ok newSep =>
                match updateSeparatorKey p1 s.tree.tree_type parent_page
                    sep_idx newSep with
                | (.error e, p2) => (.error e, { s with pager := p2 })
                | (.ok (), p2) =>
                  match insert_cell_ordered p2 s.tree.usable_page_size
                      target_page sibling_cell with
                  | (.error e, p3) => (.error e, { s with pager := p3 })
                  | (.ok _, p3) => (.ok true, { s with pager := p3 })

/-- Embeds the cell-moving loop of `BTree::merge_nodes`
(`for i in 0..right_cell_count`), re-reading the right node's cell at each
index from the current state and inserting it ordered into the left node. -/
def mergeMoveGo (p : Pager) (usable : Nat) (left_page right_page : Nat) :
    Nat → Nat → Except Err Unit × Pager
  | _, 0 => (.ok (), p)
  | i, r + 1 =>
    match nodeData p right_page with
    | .error e => (.error e, p)
    | .ok rd =>
      match rd.getCell i with
      | .error e => (.error e, p)
      | .ok cell =>
        match insert_cell_ordered p usable left_page cell with
        | (.error e, p1) => (.error e, p1)
        | (.ok _, p1) => mergeMoveGo p1 usable left_page right_page (i + 1) r

/-- Embeds `BTree::merge_nodes`: move every cell of the right node into the
left one, remove the separator from the parent (re-targeting the parent's
rightmost pointer at the left node when it pointed at the right one), and
call `create_free_page(0)` — which, per the source comments, allocates a
fresh free page while "the page itself isn't actually freed". -/
def TState.merge_nodes (s : TState) (left_page right_page parent_page : Nat) :
    Except Err Unit × TState :=
  let leaf_type :=
    if s.tree.tree_type = .Table then PageType.tableLeaf else PageType.indexLeaf
  match nodeOpen s.pager left_page leaf_type with
  | .error e => (.error e, s)
  | .ok () =>
    match nodeOpen s.pager right_page leaf_type with
    | .error e => (.error e, s)
    | .ok () =>
      let parent_type :=
        if s.tree.tree_type = .Table then PageType.tableInterior
        else PageType.indexInterior
      match nodeOpen s.pager parent_page parent_type with
      | .error e => (.error e, s)
      | .ok () =>
        match find_separator_index s.pager parent_page left_page true with
        | .error e => (.error e, s)
        | .ok sep_idx =>
          match nodeData s.pager right_page with
          | .error e => (.error e, s)
          | .ok rd =>
            match mergeMoveGo s.pager s.tree.usable_page_size left_page
                right_page 0 rd.cell_count with
            | (.error e, p1) => (.error e, { s with pager := p1 })
            | (.ok (), p1) =>
              match nodeData p1 parent_page with
              | .error e => (.error e, { s with pager := p1 })
              | .ok pd =>
                let newRm :=
                  match pd.right_most_page with
                  | some rm =>
                    if rm = right_page then some left_page else some rm
                  | none => none
                let p2 := p1.store parent_page (.btree { pd with
                  cells := pd.cells.eraseIdx sep_idx,
                  cell_count := pd.cell_count - 1,
                  right_most_page := newRm })
                match p2.create_free_page 0 with
                | (.ok _, p3) => (.ok (), { s with pager := p3 })
                | (.error e, p3) => (.error e, { s with pager := p3 })

/-- Embeds the recursion of `BTree::rebalance_after_delete` on the reversed
path (the source reads the parent from the end of the path and recurses on
the path without its last element; the worker consumes the reversed path
from the front).  Nothing to do for the root, an exhausted path, or a node
still holding at least one cell (`min_cell_count = 1`, the source's
"Simplified - should be based on page size"); otherwise try to borrow from
the right then the left sibling, and failing both merge (preferring the left
sibling) and recurse on the parent. -/
def rebalanceGo : TState → Nat → List Nat → Except Err Unit × TState
  | s, _, [] => (.ok (), s)
  | s, leaf_page, parent_page :: rrest =>
    if leaf_page = s.tree.root_page then (.ok (), s)
    else
      let min_cell_count := 1
      let leaf_type :=
        if s.tree.tree_type = .Table then PageType.tableLeaf
        else PageType.indexLeaf
      match nodeOpen s.pager leaf_page leaf_type with
      | .error e => (.error e, s)
      | .ok () =>
        match nodeData s.pager leaf_page with
        | .error e => (.error e, s)
        | .ok ld =>
          if min_cell_count ≤ ld.cell_count then (.ok (), s)
          else
            let parent_type :=
              if s.tree.tree_type = .Table then PageType.tableInterior
              else PageType.indexInterior
            match nodeOpen s.pager parent_page parent_type with
            | .error e => (.error e, s)
            | .ok () =>
              match find_siblings s.pager parent_page leaf_page with
              | .error e => (.error e, s)
              | .ok (left_sibling, right_sibling) =>
                let (r1, s1) : Except Err Bool × TState :=
                  match right_sibling with
                  | some rp =>
                    s.borrow_from_sibling leaf_page leaf_type rp parent_page
                      false
                  | none => (.ok false, s)
                match r1 with
                | .error e => (.error e, s1)
                | .ok true => (.ok (), s1)
                | .ok false =>
                  let (r2, s2) : Except Err Bool × TState :=
                    match left_sibling with
                    | some lp =>
                      match nodeOpen s1.pager leaf_page leaf_type with
                      | .error e => (.error e, s1)
                      | .ok () =>
                        s1.borrow_from_sibling leaf_page leaf_type lp
                          parent_page true
                    | none => (.ok false, s1)
                  match r2 with
                  | .error e => (.error e, s2)
                  | .ok true => (.ok (), s2)
                  | .ok false =>
                    let (r3, s3) : Except Err Unit × TState :=
                      match left_sibling with
                      | some lp => s2.merge_nodes lp leaf_page parent_page
                      | none =>
                        match right_sibling with
                        | some rp => s2.merge_nodes leaf_page rp parent_page
                        | none => (.error .invalidData, s2)
                    match r3 with
                    | .error e => (.error e, s3)
                    | .ok () => rebalanceGo s3 parent_page rrest

/-- Embeds `BTree::rebalance_after_delete` (see `rebalanceGo`). -/
def TState.rebalance_after_delete (s : TState) (leaf_page : Nat)
    (path : List Nat) : Except Err Unit × TState :=
  rebalanceGo s leaf_page path.reverse

/-- Embeds `BTree::delete`: reject index trees, descend to the leaf, return
`false` without touching the state when the rowid is absent; otherwise free
the cell's overflow chain if any, remove the cell (decrementing
`cell_count`), rebalance, and return `true`. -/
def TState.delete (s : TState) (fuel : Nat) (rowid : Int) :
    Except Err Bool × TState :=
  if s.tree.tree_type ≠ .Table then (.error .wrongTreeType, s)
  else
    match s.tree.find_leaf_for_insert s.pager fuel rowid with
    | .error e => (.error e, s)
    | .ok (leaf_page, path) =>
      match nodeOpen s.pager leaf_page .tableLeaf with
      | .error e => (.error e, s)
      | .ok () =>
        match nodeData s.pager leaf_page with
        | .error e => (.error e, s)
        | .ok d =>
          match find_table_rowid d.cells rowid with
          | .error e => (.error e, s)
          | .ok (found, idx) =>
            if !found then (.ok false, s)
            else
              match d.getCell idx with
              | .error e => (.error e, s)
              | .ok cell =>
                let (rFree, p1) : Except Err Unit × Pager :=
                  match cell with
                  | .tableLeaf lc =>
                    match lc.overflow_page with
                    | some op => free_overflow_chain s.pager fuel op
                    | none => (.ok (), s.pager)
                  | _ => (.ok (), s.pager)
                match rFree with
                | .error e => (.error e, { s with pager := p1 })
                | .ok () =>
                  match p1.get_page leaf_page (some .tableLeaf) with
                  | .error e => (.error e, { s with pager := p1 })
                  | .ok (.btree d2) =>
                    let p2 := p1.store leaf_page (.btree { d2 with
                      cells := d2.cells.eraseIdx idx,
                      cell_count := d2.cell_count - 1 })
                    match TState.rebalance_after_delete { s with pager := p2 }
                        leaf_page path with
                    | (.error e, s2) => (.error e, s2)
                    | (.ok (), s2) => (.ok true, s2)
                  | .ok _ => (.error .invalidData, { s with pager := p1 })

/-- Embeds `BTree::delete_index`: reject table trees, locate the key, return
`false` when absent; otherwise free the cell's overflow chain if any, remove
the cell, compute the path with `get_path_to_leaf`, rebalance, and return
`true`. -/
def TState.delete_index (s : TState) (fuel : Nat) (key : SqliteValue) :
    Except Err Bool × TState :=
  if s.tree.tree_type ≠ .Index then (.error .wrongTreeType, s)
  else
    match s.tree.find_index_key s.pager fuel key with
    | .error e => (.error e, s)
    | .ok (found, leaf_page, idx) =>
      if !found then (.ok false, s)
      else
        match nodeOpen s.pager leaf_page .indexLeaf with
        | .error e => (.error e, s)
        | .ok () =>
          match nodeData s.pager leaf_page with
          | .error e => (.error e, s)
          | .ok d =>
            match d.getCell idx with
            | .error e => (.error e, s)
            | .ok cell =>
              let (rFree, p1) : Except Err Unit × Pager :=
                match cell with
                | .indexLeaf lc =>
                  match lc.overflow_page with
                  | some op => free_overflow_chain s.pager fuel op
                  | none => (.ok (), s.pager)
                | _ => (.ok (), s.pager)
              match rFree with
              | .error e => (.error e, { s with pager := p1 })
              | .ok () =>
                match p1.get_page leaf_page (some .indexLeaf) with
                | .error e => (.error e, { s with pager := p1 })
                | .ok (.btree d2) =>
                  let p2 := p1.store leaf_page (.btree { d2 with
                    cells := d2.cells.eraseIdx idx,
                    cell_count := d2.cell_count - 1 })
                  match s.tree.get_path_to_leaf p2 fuel leaf_page key with
                  | .error e => (.error e, { s with pager := p2 })
                  | .ok path =>
                    match TState.rebalance_after_delete { s with pager := p2 }
                        leaf_page path with
                    | (.error e, s2) => (.error e, s2)
                    | (.ok (), s2) => (.ok true, s2)
                | .ok _ => (.error .invalidData, { s with pager := p1 })

/-- The page data obtained from `pl` by removing the cell at `idx` and
decrementing the cell count, as `delete`/`delete_index` build it. -/
def erasedLeaf (pl : BTreePageData) (idx : Nat) : BTreePageData :=
  { pl with cells := pl.cells.eraseIdx idx, cell_count := pl.cell_count - 1 }

/-! ## Derived predicates and specification-side notions

Everything below is *about* the model (used to state and prove the claims);
nothing below is part of the embedded program. -/

/-- The rowids of the table-leaf cells of a cell list, provided every cell is
a table-leaf cell. -/
def leafRowids : List BTreeCell → Option (List Int)
  | [] => some []
  | .tableLeaf c :: cs => (leafRowids cs).map (c.row_id :: ·)
  | _ => none

/-- The `(left_child, key)` entries of a table-interior cell list, provided
every cell is a table-interior cell. -/
def interiorEntries : List BTreeCell → Option (List (Nat × Int))
  | [] => some []
  | .tableInterior c :: cs => (interiorEntries cs).map ((c.left_child_page, c.key) :: ·)
  | _ => none

/-- `k` lies strictly above the optional lower bound. -/
def aboveLo (lo : Option Int) (k : Int) : Bool :=
  match lo with
  | none => true
  | some l => l < k

/-- `k` lies at or below the optional upper bound. -/
def belowHi (hi : Option Int) (k : Int) : Bool :=
  match hi with
  | none => true
  | some h => k ≤ h

/-- The keys are strictly ascending and lie within `(lo, hi]`. -/
def ascWithin (lo hi : Option Int) : List Int → Bool
  | [] => true
  | k :: ks => aboveLo lo k && belowHi hi k && ascWithin (some k) hi ks

/-- The key-range tasks for the children below a run of interior entries:
the child of entry `i` must hold keys in `(key_{i-1}, key_i]`. -/
def childTasks (lo : Option Int) : List (Nat × Int) →
    List (Nat × Option Int × Option Int)
  | [] => []
  | (c, k) :: es => (c, lo, some k) :: childTasks (some k) es

/-- The §4.7 ordering invariants of a table tree, checked over a worklist of
`(page, lower, upper)` tasks (the fuel bounds the number of pages visited):
every page exists with the right subtype and consistent `cell_count`; keys
are strictly ascending within the task's range; the subtree below interior
cell `i` holds keys in `(key_{i-1}, key_i]` and the rightmost child holds
keys above the last key. -/
def wfForestGo (p : Pager) : Nat → List (Nat × Option Int × Option Int) → Bool
  | _, [] => true
  | 0, _ :: _ => false
  | fuel + 1, (n, lo, hi) :: rest =>
    match p.lookup n with
    | some (.btree d) =>
      if d.page_type = .tableLeaf then
        match leafRowids d.cells with
        | some ks =>
          decide (d.cell_count = d.cells.length) &&
            decide (d.right_most_page = none) && ascWithin lo hi ks &&
            wfForestGo p fuel rest
        | none => false
      else if d.page_type = .tableInterior then
        match interiorEntries d.cells, d.right_most_page with
        | some es, some rm =>
          let rmLo : Option Int :=
            match es.getLast? with
            | some e => some e.2
            | none => lo
          decide (d.cell_count = d.cells.length) &&
            ascWithin lo hi (es.map (·.2)) &&
            wfForestGo p fuel (childTasks lo es ++ [(rm, rmLo, hi)] ++ rest)
        | _, _ => false
      else false
    | _ => false

/-- A table tree rooted at `root` satisfies the ordering invariants, checked
with the given page-count fuel. -/
def wfTableTree (p : Pager) (fuel root : Nat) : Bool :=
  wfForestGo p fuel [(root, none, none)]

/-- Pager sanity: page numbers are positive, unique, and bounded by
`page_count` (§3: "`page_count` equals the number of allocated pages"). -/
def pagerWf (p : Pager) : Prop :=
  (p.pages.map (·.1)).Nodup ∧ ∀ e ∈ p.pages, 1 ≤ e.1 ∧ e.1 ≤ p.page_count

instance (p : Pager) : Decidable (pagerWf p) := by
  unfold pagerWf; infer_instance

/-- All rowids stored in the table-leaf cells of one page. -/
def pageRowids : Page → List Int
  | .btree d => d.cells.filterMap fun c =>
      match c with
      | .tableLeaf lc => some lc.row_id
      | _ => none
  | _ => []

/-- All rowids stored anywhere in the pager. -/
def pagerRowids (p : Pager) : List Int :=
  (p.pages.map fun e => pageRowids e.2).flatten

/-- The position at which a new cell with rowid `k` lands among existing
cells with the given rowids (the length of the maximal prefix of strictly
smaller keys that `insertPos` skips). -/
def tableInsertPosKeys (k : Int) : List Int → Nat
  | [] => 0
  | x :: xs => if x < k then tableInsertPosKeys k xs + 1 else 0

/-- The leaf cell `BTree::insert` ends up inserting: the factory cell, with
`overflow_page` patched to the overflow-chain head (which, under an empty
allocation schedule, is `page_count` plus the number of chain pages) when the
factory returns an overflow tail. -/
def finalInsertCell (s : TState) (rowid : Int) (rec : Record) : BTreeCell :=
  match BTreeCellFactory.create_table_leaf_cell rowid rec.toBytes
      s.tree.max_local_payload s.tree.min_local_payload
      s.tree.usable_page_size with
  | (c, none) => c
  | (.tableLeaf lc, some od) =>
    let head := s.pager.page_count + (chunksOf (s.tree.page_size - 4) od).length
    .tableLeaf { lc with overflow_page := some head }
  | (c, some _) => c

/-- A genuine overflow chain in the pager: from page `n` (0 terminates) the
`next_page` pointers reach 0, visiting pages in `(lo, hi]` and collecting
the listed data segments.  A finite derivation rules out cycles. -/
inductive IsChain (q : Pager) (lo : Nat) : Nat → Nat → List (List Nat) → Prop
  | nil (hi : Nat) : IsChain q lo hi 0 []
  | cons {hi n next : Nat} {data : List Nat} {segs : List (List Nat)} :
      lo < n → n ≤ hi → q.lookup n = some (.overflow next data) →
      IsChain q lo hi next segs → IsChain q lo hi n (data :: segs)

/-! ## Concrete states used by counterexamples and witnesses -/

/-- A one-column blob record whose serialized payload is 48 bytes. -/
def recB (b : Nat) : Record := ⟨[.blob (List.replicate 46 b)]⟩

/-- A 48-byte table-leaf cell for rowid `j` (the serialized `recB 0`). -/
def leafCellB (j : Int) : BTreeCell :=
  .tableLeaf ⟨48, j, (recB 0).toBytes, none⟩

/-- A table B-Tree handle over 512-byte pages, root at page 2, SQLite's
standard payload fractions at their most permissive (`max = 255`). -/
def cfg512 : BTree := ⟨2, .Table, 512, 0, 255, 32⟩

/-- The C1 state: a well-formed two-level table tree — interior root (page 2,
separator key 10, rightmost child 4), a full left leaf (page 3, rowids 1–9)
and a right leaf (page 4, rowids 11, 12).  Inserting rowid 10 overflows the
left leaf and splits it. -/
def stSplit : TState :=
  { tree := cfg512,
    pager := ⟨[(2, .btree ⟨.tableInterior, 1, some 4, [.tableInterior ⟨3, 10⟩]⟩),
               (3, .btree ⟨.tableLeaf, 9, none,
                  ((List.range 9).map fun j => leafCellB ((j : Int) + 1))⟩),
               (4, .btree ⟨.tableLeaf, 2, none, [leafCellB 11, leafCellB 12]⟩)],
              4, []⟩ }

/-- The C5 state: interior root (page 2) over leaves 3 (rowid 1) and 4
(rowid 7); deleting rowid 7 empties leaf 4 and merges, leaving the root an
interior page with a single child. -/
def stMerge : TState :=
  { tree := cfg512,
    pager := ⟨[(2, .btree ⟨.tableInterior, 1, some 4, [.tableInterior ⟨3, 5⟩]⟩),
               (3, .btree ⟨.tableLeaf, 1, none, [.tableLeaf ⟨3, 1, [2, 8], none⟩]⟩),
               (4, .btree ⟨.tableLeaf, 1, none, [.tableLeaf ⟨3, 7, [2, 9], none⟩]⟩)],
              4, []⟩ }

/-- The C10 state: interior root (page 2) over leaves 3 (rowids 1, 2) and 4
(rowid 5); deleting rowid 5 empties leaf 4, which then borrows rowid 2 back
from leaf 3. -/
def stBorrow : TState :=
  { tree := cfg512,
    pager := ⟨[(2, .btree ⟨.tableInterior, 1, some 4, [.tableInterior ⟨3, 2⟩]⟩),
               (3, .btree ⟨.tableLeaf, 2, none,
                  [.tableLeaf ⟨3, 1, [2, 8], none⟩, .tableLeaf ⟨3, 2, [2, 9], none⟩]⟩),
               (4, .btree ⟨.tableLeaf, 1, none, [.tableLeaf ⟨3, 5, [2, 9], none⟩]⟩)],
              4, []⟩ }

/-- The C4 state: a single root leaf (page 2) whose only cell (rowid 7) owns
the one-page overflow chain at page 3. -/
def stOv : TState :=
  { tree := cfg512,
    pager := ⟨[(2, .btree ⟨.tableLeaf, 1, none, [.tableLeaf ⟨6, 7, [2, 8], some 3⟩]⟩),
               (3, .overflow 0 [170, 170, 170, 170])],
              3, []⟩ }

/-- The C6 tree handle: 8-byte pages, so each overflow page holds 4 data
bytes. -/
def cfg8 : BTree := ⟨2, .Table, 8, 0, 255, 32⟩

/-- The C6 pager: empty file whose next allocation succeeds and whose second
allocation fails with an I/O error. -/
def pagerFail : Pager := ⟨[], 0, [false, true]⟩

/-- The C7 pager: page 3 is an overflow page whose `next_page` pointer loops
back to page 3 itself (`page_count = 3`). -/
def pagerCyc : Pager := ⟨[(3, .overflow 3 [7])], 3, []⟩

/-- A witness state for C8/C9/C2/C3/C1: a table tree with a single root leaf
(page 2) holding rowids 1 and 3. -/
def stLeafW : TState :=
  { tree := cfg512,
    pager := ⟨[(2, .btree ⟨.tableLeaf, 2, none,
                  [.tableLeaf ⟨3, 1, [2, 8], none⟩, .tableLeaf ⟨3, 3, [2, 9], none⟩]⟩)],
              2, []⟩ }

/-- A witness state over an index tree (root is the index leaf page 2). -/
def stIdxW : TState :=
  { tree := ⟨2, .Index, 512, 0, 255, 32⟩,
    pager := ⟨[(2, .btree ⟨.indexLeaf, 0, none, []⟩)], 2, []⟩ }

/-- The root leaf page data of `stLeafW` (rowids 1 and 3). -/
def plLeafW : BTreePageData :=
  ⟨.tableLeaf, 2, none,
   [.tableLeaf ⟨3, 1, [2, 8], none⟩, .tableLeaf ⟨3, 3, [2, 9], none⟩]⟩

/-- The root leaf page data of `stIdxW2` (keys `[integer 5]`, `[integer 9]`). -/
def plIdxW2 : BTreePageData :=
  ⟨.indexLeaf, 2, none,
   [.indexLeaf ⟨3, [2, 1, 5], none⟩, .indexLeaf ⟨3, [2, 1, 9], none⟩]⟩

/-- An index-tree witness state whose root leaf (page 2) holds two keys:
the records `[integer 5]` and `[integer 9]` (encoded as `[2, 1, v]`). -/
def stIdxW2 : TState :=
  { tree := ⟨2, .Index, 512, 0, 255, 32⟩,
    pager := ⟨[(2, .btree ⟨.indexLeaf, 2, none,
                  [.indexLeaf ⟨3, [2, 1, 5], none⟩, .indexLeaf ⟨3, [2, 1, 9], none⟩]⟩)],
              2, []⟩ }

/-! ## Infrastructure lemmas -/

theorem pagesLookup_store (es : List (Nat × Page)) (n : Nat) (pg : Page)
    (x : Nat) :
    pagesLookup (pagesStore es n pg) x =
      if x = n then some pg else pagesLookup es x := by
  induction es with
  | nil =>
    simp only [pagesStore, pagesLookup]
    by_cases h : x = n
    · subst h; simp
    · rw [if_neg (fun hn => h hn.symm), if_neg h]
  | cons e es ih =>
    simp only [pagesStore]
    by_cases he : e.1 = n
    · simp only [if_pos he, pagesLookup]
      by_cases h : x = n
      · subst h; simp [he]
      · rw [if_neg (fun hn => h hn.symm), if_neg h,
          if_neg (fun hx => h (hx ▸ he.symm).symm)]
    · simp only [if_neg he, pagesLookup, ih]
      by_cases hex : e.1 = x
      · have hxn : x ≠ n := fun hxn => he (hex.trans hxn)
        simp [hex, hxn]
      · simp [hex]

theorem Pager.lookup_store (p : Pager) (n : Nat) (pg : Page) (x : Nat) :
    (p.store n pg).lookup x = if x = n then some pg else p.lookup x := by
  simpa [Pager.store, Pager.lookup] using pagesLookup_store p.pages n pg x

theorem pagesLookup_mem {es : List (Nat × Page)} {x : Nat} {pg : Page}
    (h : pagesLookup es x = some pg) : (x, pg) ∈ es := by
  induction es with
  | nil => simp [pagesLookup] at h
  | cons e es ih =>
    obtain ⟨a, b⟩ := e
    simp only [pagesLookup] at h
    by_cases he : a = x
    · rw [if_pos he] at h
      injection h with h2
      subst he
      subst h2
      exact List.mem_cons_self _ _
    · rw [if_neg he] at h
      exact List.mem_cons_of_mem _ (ih h)

theorem Pager.lookup_le_page_count {p : Pager} {x : Nat} {pg : Page}
    (hwf : pagerWf p) (h : p.lookup x = some pg) :
    1 ≤ x ∧ x ≤ p.page_count :=
  hwf.2 _ (pagesLookup_mem h)

theorem Pager.alloc_nil (p : Pager) (pg : Page) (h : p.allocSchedule = []) :
    p.alloc pg = (.ok (p.page_count + 1),
      { pages := pagesStore p.pages (p.page_count + 1) pg,
        page_count := p.page_count + 1, allocSchedule := [] }) := by
  simp [Pager.alloc, h, Pager.store]

theorem chunksGo_flatten (k fuel : Nat) :
    ∀ l : List Nat, (chunksGo fuel k l).flatten = l := by
  induction fuel with
  | zero => intro l; cases l <;> simp [chunksGo]
  | succ n ih =>
    intro l
    cases l with
    | nil => simp [chunksGo]
    | cons a l => simp [chunksGo, ih]

theorem chunksOf_flatten (k : Nat) (l : List Nat) :
    (chunksOf k l).flatten = l :=
  chunksGo_flatten k l.length l

theorem chunksOf_ne_nil {l : List Nat} (k : Nat) (h : l ≠ []) :
    chunksOf k l ≠ [] := by
  cases l with
  | nil => simp at h
  | cons a l => simp [chunksOf, chunksGo]

theorem chunksGo_length_le {k : Nat} (hk : 1 ≤ k) (fuel : Nat) :
    ∀ l : List Nat, (chunksGo fuel k l).length ≤ l.length := by
  induction fuel with
  | zero => intro l; cases l <;> simp [chunksGo]
  | succ n ih =>
    intro l
    cases l with
    | nil => simp [chunksGo]
    | cons a l =>
      simp only [chunksGo, List.length_cons]
      have := ih ((a :: l).drop k)
      simp only [List.length_drop, List.length_cons] at this
      omega

theorem chunksOf_length_le {k : Nat} (hk : 1 ≤ k) (l : List Nat) :
    (chunksOf k l).length ≤ l.length :=
  chunksGo_length_le hk l.length l

theorem IsChain.mono_hi {q : Pager} {lo hi hi' n : Nat}
    {segs : List (List Nat)} (h : IsChain q lo hi n segs) (hh : hi ≤ hi') :
    IsChain q lo hi' n segs := by
  induction h with
  | nil => exact .nil hi'
  | cons hlt hle hlk _ ih => exact .cons hlt (hle.trans hh) hlk ih

theorem IsChain.preserve {q q' : Pager} {lo hi n : Nat}
    {segs : List (List Nat)} (h : IsChain q lo hi n segs)
    (hag : ∀ x, lo < x → x ≤ hi → q'.lookup x = q.lookup x) :
    IsChain q' lo hi n segs := by
  induction h with
  | nil => exact .nil _
  | cons hlt hle hlk _ ih => exact .cons hlt hle ((hag _ hlt hle).trans hlk) ih

theorem IsChain.read {q : Pager} {lo hi : Nat} :
    ∀ {segs : List (List Nat)} {n : Nat}, IsChain q lo hi n segs →
      ∀ fuel acc, segs.length ≤ fuel →
        readChainGo q fuel n acc = .ok (acc ++ segs.flatten) := by
  intro segs
  induction segs with
  | nil =>
    intro n h fuel acc _
    cases h
    cases fuel <;> simp [readChainGo]
  | cons data segs ih =>
    intro n h fuel acc hf
    cases h with
    | cons hlt hle hlk hch =>
      cases fuel with
      | zero => simp at hf
      | succ f =>
        obtain ⟨m, rfl⟩ : ∃ m, n = m + 1 := ⟨n - 1, by omega⟩
        simp only [readChainGo, Pager.get_page, hlk, Page.pageType, if_true]
        rw [ih hch f (acc ++ data) (by simp at hf; omega)]
        simp

theorem chainRevGo_spec (lo : Nat) :
    ∀ (cs : List (List Nat)) (p : Pager) (next : Nat) (segs : List (List Nat)),
      p.allocSchedule = [] → lo ≤ p.page_count →
      IsChain p lo p.page_count next segs →
      ∃ p1, chainRevGo p cs next =
          (.ok (if cs = [] then next else p.page_count + cs.length), p1) ∧
        p1.page_count = p.page_count + cs.length ∧
        p1.allocSchedule = [] ∧
        (∀ x, x ≤ p.page_count → p1.lookup x = p.lookup x) ∧
        IsChain p1 lo p1.page_count
          (if cs = [] then next else p.page_count + cs.length)
          (cs.reverse ++ segs) := by
  intro cs
  induction cs with
  | nil =>
    intro p next segs hs hlo hch
    exact ⟨p, by simp [chainRevGo], by simp, hs, fun x _ => rfl, by simpa using hch⟩
  | cons c cs ih =>
    intro p next segs hs hlo hch
    have halloc := Pager.alloc_nil p (.overflow next c) hs
    set p1 : Pager := { pages := pagesStore p.pages (p.page_count + 1) (.overflow next c),
                        page_count := p.page_count + 1, allocSchedule := [] } with hp1
    have hl1 : ∀ x, p1.lookup x =
        if x = p.page_count + 1 then some (.overflow next c) else p.lookup x := by
      intro x
      simpa [hp1, Pager.lookup] using pagesLookup_store p.pages (p.page_count + 1) (.overflow next c) x
    have hlk1 : p1.lookup (p.page_count + 1) = some (.overflow next c) := by
      rw [hl1, if_pos rfl]
    have hch1 : IsChain p1 lo p1.page_count (p.page_count + 1) (c :: segs) := by
      refine IsChain.cons (by omega) (by simp [hp1]) hlk1 ?_
      refine (hch.preserve ?_).mono_hi (by simp [hp1])
      intro x _ hxle
      rw [hl1, if_neg (by omega)]
    obtain ⟨p2, h2run, h2pc, h2s, h2pres, h2ch⟩ :=
      ih p1 (p.page_count + 1) (c :: segs) rfl (by simp [hp1]; omega) hch1
    have hp1pc : p1.page_count = p.page_count + 1 := by simp [hp1]
    refine ⟨p2, ?_, ?_, h2s, ?_, ?_⟩
    · simp only [chainRevGo, Pager.create_overflow_page, halloc, h2run, hp1pc]
      by_cases hcs : cs = [] <;> simp [hcs]
      omega
    · simp [h2pc, hp1pc]; omega
    · intro x hx
      rw [h2pres x (by omega), hl1, if_neg (by omega)]
    · have : cs.reverse ++ (c :: segs) = (c :: cs).reverse ++ segs := by simp
      rw [this] at h2ch
      have hhead : (if cs = [] then p.page_count + 1 else p1.page_count + cs.length) =
          p.page_count + (c :: cs).length := by
        by_cases hcs : cs = [] <;> simp [hcs, hp1pc] <;> omega
      rw [hhead] at h2ch
      simpa using h2ch

theorem create_overflow_chain_spec (t : BTree) (p : Pager) (data : List Nat)
    (m : Nat) (hs : p.allocSchedule = []) (hne : data ≠ [])
    (hm : m = (chunksOf (t.page_size - 4) data).length) :
    ∃ p1, t.create_overflow_chain p data = (.ok (p.page_count + m), p1) ∧
      p1.page_count = p.page_count + m ∧
      p1.allocSchedule = [] ∧
      (∀ x, x ≤ p.page_count → p1.lookup x = p.lookup x) ∧
      IsChain p1 p.page_count p1.page_count (p.page_count + m)
        (chunksOf (t.page_size - 4) data) := by
  have hcne : chunksOf (t.page_size - 4) data ≠ [] := chunksOf_ne_nil _ hne
  have hmpos : 0 < m := by
    rw [hm]; exact List.length_pos.mpr hcne
  set ovLast : Page := .overflow 0 ((chunksOf (t.page_size - 4) data).getLastD []) with hov
  have halloc := Pager.alloc_nil p ovLast hs
  set p1 : Pager := { pages := pagesStore p.pages (p.page_count + 1) ovLast,
                      page_count := p.page_count + 1, allocSchedule := [] } with hp1
  have hl1 : ∀ x, p1.lookup x =
      if x = p.page_count + 1 then some ovLast else p.lookup x := by
    intro x
    simpa [hp1, Pager.lookup] using pagesLookup_store p.pages (p.page_count + 1) ovLast x
  have hlk1 : p1.lookup (p.page_count + 1) = some ovLast := by
    rw [hl1, if_pos rfl]
  have hch1 : IsChain p1 p.page_count p1.page_count (p.page_count + 1)
      [(chunksOf (t.page_size - 4) data).getLastD []] := by
    refine IsChain.cons (by omega) (by simp [hp1]) (hov ▸ hlk1) (.nil _)
  have hsplit : (chunksOf (t.page_size - 4) data).dropLast ++
      [(chunksOf (t.page_size - 4) data).getLastD []] =
      chunksOf (t.page_size - 4) data := by
    cases h : chunksOf (t.page_size - 4) data with
    | nil => exact absurd h hcne
    | cons a l =>
      rw [List.getLastD_eq_getLast?, List.getLast?_eq_getLast (a :: l) (by simp)]
      simp [List.dropLast_append_getLast]
  by_cases hone : m = 1
  · -- a single chunk: the first page is the whole chain
    have h0 : ¬((chunksOf (t.page_size - 4) data).length = 0) := by
      rw [← hm]; omega
    have h1 : (chunksOf (t.page_size - 4) data).length = 1 := by
      rw [← hm]; omega
    have hchl : chunksOf (t.page_size - 4) data =
        [(chunksOf (t.page_size - 4) data).getLastD []] := by
      cases h : chunksOf (t.page_size - 4) data with
      | nil => exact absurd h hcne
      | cons a l =>
        have hl0 : l = [] := by
          rw [h] at h1
          simpa using h1
        subst hl0
        simp [List.getLastD]
    refine ⟨p1, ?_, by simp only [hp1]; omega, rfl, ?_, ?_⟩
    · rw [hone]
      simp only [BTree.create_overflow_chain, Pager.create_overflow_page]
      rw [if_neg h0, halloc]
      simp [h1]
    · intro x hx
      rw [hl1, if_neg (by omega)]
    · rw [hone]
      rw [hchl]
      have hpc1 : p1.page_count = p.page_count + 1 := by simp only [hp1]
      rw [hpc1]
      exact hch1.mono_hi (by omega)
  · -- at least two chunks: build the rest in reverse order
    obtain ⟨p2, h2run, h2pc, h2s, h2pres, h2ch⟩ :=
      chainRevGo_spec p.page_count
        ((chunksOf (t.page_size - 4) data).dropLast.reverse) p1
        (p.page_count + 1)
        [(chunksOf (t.page_size - 4) data).getLastD []]
        rfl (by simp only [hp1]; omega) hch1
    have hlen : (chunksOf (t.page_size - 4) data).dropLast.reverse.length = m - 1 := by
      simp [hm]
    have hcsne : (chunksOf (t.page_size - 4) data).dropLast.reverse ≠ [] := by
      intro h
      have := congrArg List.length h
      rw [hlen] at this
      simp at this
      omega
    have h0 : ¬((chunksOf (t.page_size - 4) data).length = 0) := by
      rw [← hm]; omega
    have h1 : ¬((chunksOf (t.page_size - 4) data).length = 1) := by
      rw [← hm]; omega
    have hpc1 : p1.page_count = p.page_count + 1 := by simp only [hp1]
    refine ⟨p2, ?_, ?_, h2s, ?_, ?_⟩
    · simp only [BTree.create_overflow_chain, Pager.create_overflow_page]
      rw [if_neg h0, halloc]
      have hred : (if (chunksOf (t.page_size - 4) data).length = 1
          then (Except.ok (p.page_count + 1), p1)
          else chainRevGo p1 (chunksOf (t.page_size - 4) data).dropLast.reverse
            (p.page_count + 1)) =
          chainRevGo p1 (chunksOf (t.page_size - 4) data).dropLast.reverse
            (p.page_count + 1) := if_neg h1
      simp only [hred, h2run, if_neg hcsne, hlen, hpc1]
      have harith : p.page_count + 1 + (m - 1) = p.page_count + m := by omega
      rw [harith]
      rw [if_neg h1]
    · rw [h2pc, hlen, hpc1]
      omega
    · intro x hx
      rw [h2pres x (by rw [hpc1]; omega), hl1, if_neg (by omega)]
    · rw [if_neg hcsne, hlen] at h2ch
      rw [List.reverse_reverse] at h2ch
      rw [hsplit] at h2ch
      rw [hpc1] at h2ch
      have harith : p.page_count + 1 + (m - 1) = p.page_count + m := by omega
      rw [harith] at h2ch
      exact h2ch

theorem get_page_type_congr {p q : Pager} {n : Nat}
    (h : q.lookup n = p.lookup n) : get_page_type q n = get_page_type p n := by
  simp only [get_page_type, Pager.get_page, h]

theorem nodeData_congr {p q : Pager} {n : Nat}
    (h : q.lookup n = p.lookup n) : nodeData q n = nodeData p n := by
  simp only [nodeData, h]

theorem get_page_type_lookup {p : Pager} {n : Nat} {t : PageType}
    (h : get_page_type p n = .ok t) :
    ∃ d, p.lookup n = some (.btree d) ∧ d.page_type = t := by
  simp only [get_page_type, Pager.get_page] at h
  cases hc : p.lookup n with
  | none => rw [hc] at h; simp at h
  | some pg =>
    rw [hc] at h
    cases pg with
    | btree d => simp at h; exact ⟨d, rfl, h⟩
    | overflow next data => simp at h
    | free => simp at h

theorem findLeafGo_to_descend (p : Pager) (k : Int) :
    ∀ (fuel cur : Nat) (path0 path : List Nat) (L : Nat),
      findLeafGo p fuel cur path0 k = .ok (L, path) →
      findDescendGo p fuel cur k = .ok L := by
  intro fuel
  induction fuel with
  | zero => intro cur path0 path L h; simp [findLeafGo] at h
  | succ f ih =>
    intro cur path0 path L h
    simp only [findLeafGo] at h
    simp only [findDescendGo]
    split at h
    next e heq => simp at h
    next t heq =>
      split at h
      next hl =>
        rw [if_pos hl]
        simp at h
        simp [h.1]
      next hl =>
        rw [if_neg hl]
        split at h
        next e hnd => simp at h
        next d hnd =>
          split at h
          next e hch => simp at h
          next child hch =>
            exact ih child (path0 ++ [cur]) path L h

theorem findDescendGo_mono (p : Pager) (k : Int) :
    ∀ (fuel fuel2 cur L : Nat), fuel ≤ fuel2 →
      findDescendGo p fuel cur k = .ok L →
      findDescendGo p fuel2 cur k = .ok L := by
  intro fuel
  induction fuel with
  | zero => intro fuel2 cur L _ h; simp [findDescendGo] at h
  | succ f ih =>
    intro fuel2 cur L hle h
    obtain ⟨f2, rfl⟩ : ∃ f2, fuel2 = f2 + 1 := ⟨fuel2 - 1, by omega⟩
    simp only [findDescendGo] at h ⊢
    split at h
    next e heq => simp at h
    next t heq =>
      split at h
      next hl => rw [if_pos hl]; exact h
      next hl =>
        rw [if_neg hl]
        split at h
        next e hnd => simp at h
        next d hnd =>
          split at h
          next e hch => simp at h
          next child hch =>
            exact ih f2 child L (by omega) h

theorem findDescend_stable (p q : Pager) (k : Int) (L : Nat)
    (hagree : ∀ n, p.lookup n ≠ none → n ≠ L → q.lookup n = p.lookup n)
    (dL dL' : BTreePageData)
    (hL : p.lookup L = some (.btree dL)) (hLleaf : dL.page_type.isLeaf = true)
    (hL' : q.lookup L = some (.btree dL'))
    (hLleaf' : dL'.page_type.isLeaf = true) :
    ∀ fuel cur, findDescendGo p fuel cur k = .ok L →
      findDescendGo q fuel cur k = .ok L := by
  intro fuel
  induction fuel with
  | zero => intro cur h; simp [findDescendGo] at h
  | succ f ih =>
    intro cur h
    simp only [findDescendGo] at h ⊢
    split at h
    next e heq => simp at h
    next t heq =>
      split at h
      next hl =>
        simp at h
        subst h
        simp [get_page_type, Pager.get_page, hL', hLleaf']
      next hl =>
        have hcur : p.lookup cur ≠ none := by
          obtain ⟨d, hd, _⟩ := get_page_type_lookup heq
          simp [hd]
        have hne : cur ≠ L := by
          intro he
          subst he
          obtain ⟨d, hd, hdt⟩ := get_page_type_lookup heq
          rw [hL] at hd
          injection hd with hd
          injection hd with hd
          subst hd
          rw [hdt] at hLleaf
          exact hl hLleaf
        have hag := hagree cur hcur hne
        rw [get_page_type_congr hag, heq]
        dsimp only
        rw [if_neg hl]
        split at h
        next e hnd => simp at h
        next d hnd =>
          rw [nodeData_congr hag, hnd]
          dsimp only
          split at h
          next e hch => simp at h
          next child hch =>
            exact ih child h

theorem leafRowids_length :
    ∀ {cells : List BTreeCell} {ks : List Int},
      leafRowids cells = some ks → ks.length = cells.length := by
  intro cells
  induction cells with
  | nil => intro ks h; simp [leafRowids] at h; simp [← h]
  | cons c cs ih =>
    intro ks h
    cases c with
    | tableLeaf lc =>
      simp only [leafRowids] at h
      cases hr : leafRowids cs with
      | none => rw [hr] at h; simp at h
      | some ks2 =>
        rw [hr] at h
        simp at h
        subst h
        simp [ih hr]
    | tableInterior c => simp [leafRowids] at h
    | indexLeaf c => simp [leafRowids] at h
    | indexInterior c => simp [leafRowids] at h

theorem insertPos_table (lc : TableLeafCell) :
    ∀ {cells : List BTreeCell} {ks : List Int},
      leafRowids cells = some ks →
      insertPos (.tableLeaf lc) cells = .ok (tableInsertPosKeys lc.row_id ks) := by
  intro cells
  induction cells with
  | nil =>
    intro ks h
    simp [leafRowids] at h
    subst h
    simp [insertPos, tableInsertPosKeys]
  | cons c cs ih =>
    intro ks h
    cases c with
    | tableLeaf c =>
      simp only [leafRowids] at h
      cases hr : leafRowids cs with
      | none => rw [hr] at h; simp at h
      | some ks2 =>
        rw [hr] at h
        simp at h
        subst h
        simp only [insertPos, cellCompare, cellKeyTable, tableInsertPosKeys]
        by_cases hlt : c.row_id < lc.row_id
        · have hc : compare lc.row_id c.row_id = Ordering.gt :=
            compare_gt_iff_gt.mpr hlt
          rw [hc, if_pos hlt, ih hr]
          rfl
        · have hc : compare lc.row_id c.row_id ≠ Ordering.gt :=
            fun hcc => hlt (compare_gt_iff_gt.mp hcc)
          rw [if_neg hlt]
          cases hcc : compare lc.row_id c.row_id with
          | lt => rfl
          | eq => rfl
          | gt => exact absurd hcc hc
    | tableInterior c => simp [leafRowids] at h
    | indexLeaf c => simp [leafRowids] at h
    | indexInterior c => simp [leafRowids] at h

theorem tableInsertPosKeys_le_length (k : Int) :
    ∀ ks : List Int, tableInsertPosKeys k ks ≤ ks.length := by
  intro ks
  induction ks with
  | nil => simp [tableInsertPosKeys]
  | cons x xs ih =>
    simp only [tableInsertPosKeys, List.length_cons]
    by_cases h : x < k
    · rw [if_pos h]; omega
    · rw [if_neg h]; omega

theorem find_table_rowid_inserted (lc : TableLeafCell) :
    ∀ {cells : List BTreeCell} {ks : List Int},
      leafRowids cells = some ks →
      find_table_rowid (listInsertAt (tableInsertPosKeys lc.row_id ks)
        (.tableLeaf lc) cells) lc.row_id =
        .ok (true, tableInsertPosKeys lc.row_id ks) := by
  intro cells
  induction cells with
  | nil =>
    intro ks h
    simp [leafRowids] at h
    subst h
    simp [tableInsertPosKeys, listInsertAt, find_table_rowid]
  | cons c cs ih =>
    intro ks h
    cases c with
    | tableLeaf c =>
      simp only [leafRowids] at h
      cases hr : leafRowids cs with
      | none => rw [hr] at h; simp at h
      | some ks2 =>
        rw [hr] at h
        simp at h
        subst h
        simp only [tableInsertPosKeys]
        by_cases hlt : c.row_id < lc.row_id
        · rw [if_pos hlt]
          simp only [listInsertAt, find_table_rowid]
          rw [if_neg (by omega)]
          rw [ih hr]
          simp [Except.bind]
        · rw [if_neg hlt]
          simp only [listInsertAt, find_table_rowid]
          rw [if_pos (by omega)]
          simp
    | tableInterior c => simp [leafRowids] at h
    | indexLeaf c => simp [leafRowids] at h
    | indexInterior c => simp [leafRowids] at h

theorem find_table_rowid_notMem (rowid : Int) :
    ∀ {cells : List BTreeCell} {ks : List Int},
      leafRowids cells = some ks → rowid ∉ ks →
      ∃ i, find_table_rowid cells rowid = .ok (false, i) := by
  intro cells
  induction cells with
  | nil =>
    intro ks h _
    exact ⟨0, by simp [find_table_rowid]⟩
  | cons c cs ih =>
    intro ks h hmem
    cases c with
    | tableLeaf c =>
      simp only [leafRowids] at h
      cases hr : leafRowids cs with
      | none => rw [hr] at h; simp at h
      | some ks2 =>
        rw [hr] at h
        simp at h
        subst h
        simp only [List.mem_cons, not_or] at hmem
        simp only [find_table_rowid]
        by_cases hle : rowid ≤ c.row_id
        · rw [if_pos hle]
          refine ⟨0, ?_⟩
          have hne : ¬(c.row_id = rowid) := fun he => hmem.1 he.symm
          simp [hne]
        · rw [if_neg hle]
          obtain ⟨i, hi⟩ := ih hr hmem.2
          rw [hi]
          exact ⟨i + 1, by simp [Except.bind]⟩
    | tableInterior c => simp [leafRowids] at h
    | indexLeaf c => simp [leafRowids] at h
    | indexInterior c => simp [leafRowids] at h

theorem listInsertAt_getElem (a : BTreeCell) :
    ∀ (l : List BTreeCell) (pos : Nat), pos ≤ l.length →
      (listInsertAt pos a l)[pos]? = some a := by
  intro l
  induction l with
  | nil =>
    intro pos h
    simp at h
    subst h
    simp [listInsertAt]
  | cons x xs ih =>
    intro pos h
    cases pos with
    | zero => simp [listInsertAt]
    | succ n =>
      simp only [listInsertAt, List.getElem?_cons_succ]
      exact ih n (by simpa using h)

theorem localPayloadSize_le (P X M U : Nat) :
    BTreeCellFactory.localPayloadSize P X M U ≤ P := by
  unfold BTreeCellFactory.localPayloadSize
  by_cases h1 : P ≤ X
  · rw [if_pos h1]
  · rw [if_neg h1]
    by_cases h2 : P ≤ min M ((U - 35) / 4)
    · rw [if_pos h2]
    · rw [if_neg h2]
      have hm : min M ((U - 35) / 4) < P := by omega
      have := Nat.mod_le (P - min M ((U - 35) / 4)) (U - 4)
      omega

theorem create_table_leaf_cell_char (r : Int) (payload : List Nat)
    (X M U : Nat) :
    BTreeCellFactory.create_table_leaf_cell r payload X M U =
      (.tableLeaf ⟨payload.length, r,
        payload.take (BTreeCellFactory.localPayloadSize payload.length X M U),
        none⟩,
       if BTreeCellFactory.localPayloadSize payload.length X M U < payload.length
       then some (payload.drop
         (BTreeCellFactory.localPayloadSize payload.length X M U))
       else none) := rfl

theorem findLeafGo_agree (p q : Pager) (k : Int)
    (hagree : ∀ n pg, p.lookup n = some pg → q.lookup n = some pg) :
    ∀ (fuel cur : Nat) (path0 : List Nat) (out : Nat × List Nat),
      findLeafGo p fuel cur path0 k = .ok out →
      findLeafGo q fuel cur path0 k = .ok out := by
  intro fuel
  induction fuel with
  | zero => intro cur path0 out h; simp [findLeafGo] at h
  | succ f ih =>
    intro cur path0 out h
    simp only [findLeafGo] at h ⊢
    split at h
    next e heq => simp at h
    next t heq =>
      obtain ⟨d, hd, hdt⟩ := get_page_type_lookup heq
      have hq : get_page_type q cur = .ok t := by
        simp [get_page_type, Pager.get_page, hagree cur _ hd, hdt]
      rw [hq]
      dsimp only
      split at h
      next hl => rw [if_pos hl]; exact h
      next hl =>
        rw [if_neg hl]
        split at h
        next e hnd => simp at h
        next d2 hnd =>
          have hq2 : nodeData q cur = .ok d2 := by
            simp only [nodeData] at hnd ⊢
            cases hc : p.lookup cur with
            | none => rw [hc] at hnd; simp at hnd
            | some pg =>
              rw [hc] at hnd
              rw [hagree cur pg hc]
              exact hnd
          rw [hq2]
          dsimp only
          split at h
          next e hch => simp at h
          next child hch =>
            exact ih child (path0 ++ [cur]) out h

theorem insert_cell_ordered_no_split (p : Pager) (usable L : Nat)
    (pl : BTreePageData) (lc : TableLeafCell) (ks : List Int)
    (hpl : p.lookup L = some (.btree pl))
    (hcells : leafRowids pl.cells = some ks)
    (hfits : fitsIn usable pl.page_type
      (listInsertAt (tableInsertPosKeys lc.row_id ks) (.tableLeaf lc)
        pl.cells) = true) :
    insert_cell_ordered p usable L (.tableLeaf lc) =
      (.ok (false, none, none),
       p.store L (.btree { pl with
         cells := listInsertAt (tableInsertPosKeys lc.row_id ks)
           (.tableLeaf lc) pl.cells,
         cell_count := pl.cell_count + 1 })) := by
  have hnd : nodeData p L = .ok pl := by simp [nodeData, hpl]
  simp only [insert_cell_ordered, hnd]
  rw [insertPos_table lc hcells]
  dsimp only
  rw [if_pos hfits]

theorem nodeOpen_leaf (p : Pager) (L : Nat) (pl : BTreePageData)
    (hpl : p.lookup L = some (.btree pl)) (hplt : pl.page_type = .tableLeaf) :
    nodeOpen p L .tableLeaf = .ok () := by
  simp [nodeOpen, Pager.get_page, hpl, Page.pageType, hplt]

theorem insertLeafStep_no_split (s : TState) (fuel : Nat) (k : Int)
    (lc : TableLeafCell) (L : Nat) (path : List Nat) (pl : BTreePageData)
    (ks : List Int)
    (hrow : lc.row_id = k)
    (hdesc : s.tree.find_leaf_for_insert s.pager fuel k = .ok (L, path))
    (hpl : s.pager.lookup L = some (.btree pl))
    (hplt : pl.page_type = .tableLeaf)
    (hcells : leafRowids pl.cells = some ks)
    (hfits : fitsIn s.tree.usable_page_size pl.page_type
      (listInsertAt (tableInsertPosKeys k ks) (.tableLeaf lc) pl.cells) =
      true) :
    s.insertLeafStep fuel k (.tableLeaf lc) =
      (.ok (), { s with pager := s.pager.store L (.btree { pl with
        cells := listInsertAt (tableInsertPosKeys k ks) (.tableLeaf lc)
          pl.cells,
        cell_count := pl.cell_count + 1 }) }) := by
  simp only [TState.insertLeafStep, hdesc]
  rw [nodeOpen_leaf s.pager L pl hpl hplt]
  dsimp only
  subst hrow
  rw [insert_cell_ordered_no_split s.pager s.tree.usable_page_size L pl lc ks
    hpl hcells hfits]

theorem find_at_leaf (t : BTree) (q : Pager) (fuel2 : Nat) (k : Int) (L : Nat)
    (pl : BTreePageData) (lc : TableLeafCell) (pos : Nat)
    (payload : List Nat) (rec : Record) (len : Nat)
    (hty : t.tree_type = .Table)
    (hdesc : findDescendGo q fuel2 t.root_page k = .ok L)
    (hpl : q.lookup L = some (.btree pl))
    (hsearch : find_table_rowid pl.cells k = .ok (true, pos))
    (hcell : pl.cells[pos]? = some (.tableLeaf lc))
    (hchain : (match lc.overflow_page with
        | some op =>
          match read_overflow_chain q fuel2 op with
          | .error e => .error e
          | .ok tail => .ok (lc.payload ++ tail)
        | none => .ok lc.payload) = Except.ok payload)
    (hparse : Record.fromBytes payload = .ok (rec, len)) :
    t.find q fuel2 k = .ok (some rec) := by
  have hnd : nodeData q L = .ok pl := by simp [nodeData, hpl]
  have hgc : pl.getCell pos = .ok (.tableLeaf lc) := by
    simp [BTreePageData.getCell, hcell]
  simp only [BTree.find, hty]
  rw [if_neg (by simp)]
  rw [hdesc]
  dsimp only
  rw [hnd]
  dsimp only
  rw [hsearch]
  dsimp only
  rw [if_neg (by simp)]
  rw [hgc]
  dsimp only
  rw [hchain]
  dsimp only
  rw [hparse]

/-- C1 (amended): insert-then-find holds on the no-split path.  For a
well-formed table tree, when `find_leaf_for_insert` locates leaf `L`, the
record round-trips through its serialization, and the cell produced for the
record still fits in the leaf (so no split is triggered — splitting goes
through `propagate_split`, whose unconditional `set_right_most_child`
corrupts the parent's routing, refuted by the claim's counterexample),
`insert(k, rec)` succeeds, leaves the tree handle unchanged, and any
sufficiently fueled `find(k)` afterwards returns `Some rec` — including when
the payload goes through an overflow chain. -/
theorem insert_then_find_without_split
    (s : TState) (fuel : Nat) (k : Int) (rec : Record)
    (L : Nat) (path : List Nat) (pl : BTreePageData) (ks : List Int)
    (hty : s.tree.tree_type = .Table)
    (hwf : pagerWf s.pager)
    (hsched : s.pager.allocSchedule = [])
    (hps : 5 ≤ s.tree.page_size)
    (h4x : rec.toBytes.length ≤ 4 * s.tree.page_size)
    (hrt : Record.fromBytes rec.toBytes = .ok (rec, rec.toBytes.length))
    (hdesc : s.tree.find_leaf_for_insert s.pager fuel k = .ok (L, path))
    (hpl : s.pager.lookup L = some (.btree pl))
    (hplt : pl.page_type = .tableLeaf)
    (hcells : leafRowids pl.cells = some ks)
    (hfits : fitsIn s.tree.usable_page_size pl.page_type
      (listInsertAt (tableInsertPosKeys k ks) (finalInsertCell s k rec)
        pl.cells) = true) :
    (s.insert fuel k rec).1 = .ok () ∧
    (s.insert fuel k rec).2.tree = s.tree ∧
    ∀ fuel2, fuel + rec.toBytes.length ≤ fuel2 →
      s.tree.find (s.insert fuel k rec).2.pager fuel2 k = .ok (some rec) := by
  have hLb := (Pager.lookup_le_page_count hwf hpl).2
  have hpos_le : tableInsertPosKeys k ks ≤ pl.cells.length := by
    have h1 := tableInsertPosKeys_le_length k ks
    have h2 := leafRowids_length hcells
    omega
  have hchar := create_table_leaf_cell_char k rec.toBytes
    s.tree.max_local_payload s.tree.min_local_payload s.tree.usable_page_size
  have hlle := localPayloadSize_le rec.toBytes.length s.tree.max_local_payload
    s.tree.min_local_payload s.tree.usable_page_size
  by_cases hov : BTreeCellFactory.localPayloadSize rec.toBytes.length
      s.tree.max_local_payload s.tree.min_local_payload
      s.tree.usable_page_size < rec.toBytes.length
  · -- the factory returns an overflow tail
    set od : List Nat := rec.toBytes.drop (BTreeCellFactory.localPayloadSize
      rec.toBytes.length s.tree.max_local_payload s.tree.min_local_payload
      s.tree.usable_page_size) with hod
    have hodne : od ≠ [] := by
      rw [hod]
      intro hcon
      have := congrArg List.length hcon
      simp at this
      omega
    have hform : BTreeCellFactory.create_table_leaf_cell k rec.toBytes
        s.tree.max_local_payload s.tree.min_local_payload
        s.tree.usable_page_size =
        (.tableLeaf ⟨rec.toBytes.length, k,
          rec.toBytes.take (BTreeCellFactory.localPayloadSize
            rec.toBytes.length s.tree.max_local_payload
            s.tree.min_local_payload s.tree.usable_page_size), none⟩,
         some od) := by
      rw [hchar, if_pos hov, hod]
    obtain ⟨p1, hrun, hpc1, hs1, hpres1, hch1⟩ :=
      create_overflow_chain_spec s.tree s.pager od
        ((chunksOf (s.tree.page_size - 4) od).length) hsched hodne rfl
    set head := s.pager.page_count + (chunksOf (s.tree.page_size - 4) od).length
      with hhead
    set lc : TableLeafCell := ⟨rec.toBytes.length, k,
      rec.toBytes.take (BTreeCellFactory.localPayloadSize rec.toBytes.length
        s.tree.max_local_payload s.tree.min_local_payload
        s.tree.usable_page_size), some head⟩ with hlc
    have hfinal : finalInsertCell s k rec = .tableLeaf lc := by
      unfold finalInsertCell
      rw [hform]
    have hinsert : s.insert fuel k rec =
        TState.insertLeafStep { s with pager := p1 } fuel k (.tableLeaf lc) := by
      simp only [TState.insert, hty]
      rw [if_neg (by simp)]
      rw [hform]
      dsimp only
      rw [hrun]
    have hagree1 : ∀ n pg, s.pager.lookup n = some pg → p1.lookup n = some pg := by
      intro n pg hn
      rw [hpres1 n (Pager.lookup_le_page_count hwf hn).2]
      exact hn
    have hdesc1 : s.tree.find_leaf_for_insert p1 fuel k = .ok (L, path) :=
      findLeafGo_agree s.pager p1 k hagree1 fuel s.tree.root_page [] (L, path)
        hdesc
    have hpl1 : p1.lookup L = some (.btree pl) := hagree1 L _ hpl
    have hstep := insertLeafStep_no_split { s with pager := p1 } fuel k lc L
      path pl ks rfl hdesc1 hpl1 hplt hcells (by rw [← hfinal]; exact hfits)
    set newCells := listInsertAt (tableInsertPosKeys k ks) (.tableLeaf lc)
      pl.cells with hnew
    set pl2 : BTreePageData := { pl with cells := newCells, cell_count := pl.cell_count + 1 } with hpl2
    set p2 := p1.store L (.btree pl2) with hp2
    rw [hinsert, hstep]
    refine ⟨rfl, rfl, ?_⟩
    intro fuel2 hf2
    have hdes1 : findDescendGo s.pager fuel s.tree.root_page k = .ok L :=
      findLeafGo_to_descend s.pager k fuel s.tree.root_page [] path L hdesc
    have hdes2 : findDescendGo s.pager fuel2 s.tree.root_page k = .ok L :=
      findDescendGo_mono s.pager k fuel fuel2 s.tree.root_page L (by omega)
        hdes1
    have hlook2 : p2.lookup L = some (.btree pl2) := by
      rw [hp2, Pager.lookup_store, if_pos rfl]
    have hdes3 : findDescendGo p2 fuel2 s.tree.root_page k = .ok L := by
      refine findDescend_stable s.pager p2 k L ?_ pl pl2 hpl
        (by rw [hplt]; rfl) hlook2 (by rw [hpl2]; dsimp only; rw [hplt]; rfl)
        fuel2 s.tree.root_page hdes2
      intro n hn hne
      rw [hp2, Pager.lookup_store, if_neg hne]
      cases hc : s.pager.lookup n with
      | none => exact absurd hc hn
      | some pg => rw [hpres1 n (Pager.lookup_le_page_count hwf hc).2, hc]
    have hsearch : find_table_rowid pl2.cells k = .ok (true,
        tableInsertPosKeys k ks) := by
      rw [hpl2]
      exact find_table_rowid_inserted lc hcells
    have hcell : pl2.cells[tableInsertPosKeys k ks]? = some (.tableLeaf lc) := by
      rw [hpl2]
      exact listInsertAt_getElem (.tableLeaf lc) pl.cells _ hpos_le
    have hchain2 : IsChain p2 s.pager.page_count p1.page_count head
        (chunksOf (s.tree.page_size - 4) od) := by
      refine hch1.preserve ?_
      intro x hx _
      rw [hp2, Pager.lookup_store, if_neg (by omega)]
    have hmle : (chunksOf (s.tree.page_size - 4) od).length ≤ fuel2 := by
      have h1 : 1 ≤ s.tree.page_size - 4 := by omega
      have h2 := chunksOf_length_le h1 od
      have h3 : od.length ≤ rec.toBytes.length := by
        rw [hod]; simp
      omega
    have hread : read_overflow_chain p2 fuel2 head = .ok od := by
      have := hchain2.read fuel2 [] hmle
      rw [read_overflow_chain, this]
      rw [chunksOf_flatten]
      simp
    refine find_at_leaf s.tree p2 fuel2 k L pl2 lc (tableInsertPosKeys k ks)
      rec.toBytes rec rec.toBytes.length hty hdes3 hlook2 hsearch hcell ?_ hrt
    have hlcov : lc.overflow_page = some head := rfl
    have hpay : lc.payload ++ od = rec.toBytes := by
      rw [hod]
      exact List.take_append_drop _ _
    rw [hlcov]
    dsimp only
    rw [hread]
    dsimp only
    rw [hpay]
  · -- everything fits locally: no overflow chain
    have hLP : BTreeCellFactory.localPayloadSize rec.toBytes.length
        s.tree.max_local_payload s.tree.min_local_payload
        s.tree.usable_page_size = rec.toBytes.length := by omega
    have htake : rec.toBytes.take (BTreeCellFactory.localPayloadSize
        rec.toBytes.length s.tree.max_local_payload s.tree.min_local_payload
        s.tree.usable_page_size) = rec.toBytes := by
      rw [hLP, List.take_length]
    set lc : TableLeafCell := ⟨rec.toBytes.length, k, rec.toBytes, none⟩
      with hlc
    have hform : BTreeCellFactory.create_table_leaf_cell k rec.toBytes
        s.tree.max_local_payload s.tree.min_local_payload
        s.tree.usable_page_size = (.tableLeaf lc, none) := by
      rw [hchar, if_neg hov, htake]
    have hfinal : finalInsertCell s k rec = .tableLeaf lc := by
      unfold finalInsertCell
      rw [hform]
    have hinsert : s.insert fuel k rec = s.insertLeafStep fuel k
        (.tableLeaf lc) := by
      simp only [TState.insert, hty]
      rw [if_neg (by simp)]
      rw [hform]
    have hstep := insertLeafStep_no_split s fuel k lc L path pl ks rfl hdesc
      hpl hplt hcells (by rw [← hfinal]; exact hfits)
    set newCells := listInsertAt (tableInsertPosKeys k ks) (.tableLeaf lc)
      pl.cells with hnew
    set pl2 : BTreePageData := { pl with cells := newCells, cell_count := pl.cell_count + 1 } with hpl2
    set p2 := s.pager.store L (.btree pl2) with hp2
    rw [hinsert, hstep]
    refine ⟨rfl, rfl, ?_⟩
    intro fuel2 hf2
    have hdes1 : findDescendGo s.pager fuel s.tree.root_page k = .ok L :=
      findLeafGo_to_descend s.pager k fuel s.tree.root_page [] path L hdesc
    have hdes2 : findDescendGo s.pager fuel2 s.tree.root_page k = .ok L :=
      findDescendGo_mono s.pager k fuel fuel2 s.tree.root_page L (by omega)
        hdes1
    have hlook2 : p2.lookup L = some (.btree pl2) := by
      rw [hp2, Pager.lookup_store, if_pos rfl]
    have hdes3 : findDescendGo p2 fuel2 s.tree.root_page k = .ok L := by
      refine findDescend_stable s.pager p2 k L ?_ pl pl2 hpl
        (by rw [hplt]; rfl) hlook2 (by rw [hpl2]; dsimp only; rw [hplt]; rfl)
        fuel2 s.tree.root_page hdes2
      intro n hn hne
      rw [hp2, Pager.lookup_store, if_neg hne]
    have hsearch : find_table_rowid pl2.cells k = .ok (true,
        tableInsertPosKeys k ks) := by
      rw [hpl2]
      exact find_table_rowid_inserted lc hcells
    have hcell : pl2.cells[tableInsertPosKeys k ks]? = some (.tableLeaf lc) := by
      rw [hpl2]
      exact listInsertAt_getElem (.tableLeaf lc) pl.cells _ hpos_le
    exact find_at_leaf s.tree p2 fuel2 k L pl2 lc (tableInsertPosKeys k ks)
      rec.toBytes rec rec.toBytes.length hty hdes3 hlook2 hsearch hcell rfl hrt

theorem leafRowids_filterMap :
    ∀ {cells : List BTreeCell} {ks : List Int}, leafRowids cells = some ks →
      (cells.filterMap fun c => match c with
        | .tableLeaf lc => some lc.row_id
        | _ => none) = ks := by
  intro cells
  induction cells with
  | nil => intro ks h; simp [leafRowids] at h; simp [← h]
  | cons c cs ih =>
    intro ks h
    cases c with
    | tableLeaf c =>
      simp only [leafRowids] at h
      cases hr : leafRowids cs with
      | none => rw [hr] at h; simp at h
      | some ks2 =>
        rw [hr] at h
        simp at h
        subst h
        simp [List.filterMap_cons, ih hr]
    | tableInterior c => simp [leafRowids] at h
    | indexLeaf c => simp [leafRowids] at h
    | indexInterior c => simp [leafRowids] at h

theorem mem_pagerRowids {p : Pager} {L : Nat} {pg : Page} {r : Int}
    (hmem : p.lookup L = some pg) (hr : r ∈ pageRowids pg) :
    r ∈ pagerRowids p := by
  have h1 : (L, pg) ∈ p.pages := pagesLookup_mem hmem
  have h2 : pageRowids pg ∈ p.pages.map fun e => pageRowids e.2 :=
    List.mem_map_of_mem _ h1
  exact List.mem_flatten.mpr ⟨pageRowids pg, h2, hr⟩

/-- C8: for a table tree and a rowid present nowhere in the pager, `find`
returns `Ok(None)` and `delete` returns `Ok(false)` — successful not-found
results, never errors — and the failed delete leaves the state unchanged. -/
theorem find_delete_absent_rowid (s : TState) (fuel : Nat) (rowid : Int)
    (L : Nat) (path : List Nat) (pl : BTreePageData) (ks : List Int)
    (hty : s.tree.tree_type = .Table)
    (hdesc : s.tree.find_leaf_for_insert s.pager fuel rowid = .ok (L, path))
    (hpl : s.pager.lookup L = some (.btree pl))
    (hplt : pl.page_type = .tableLeaf)
    (hcells : leafRowids pl.cells = some ks)
    (habs : rowid ∉ pagerRowids s.pager) :
    s.tree.find s.pager fuel rowid = .ok none ∧
    s.delete fuel rowid = (.ok false, s) := by
  have hks : rowid ∉ ks := by
    intro hin
    refine habs (mem_pagerRowids hpl ?_)
    simp only [pageRowids]
    rw [leafRowids_filterMap hcells]
    exact hin
  obtain ⟨i, hsearch⟩ := find_table_rowid_notMem rowid hcells hks
  have hnd : nodeData s.pager L = .ok pl := by simp [nodeData, hpl]
  have hdes : findDescendGo s.pager fuel s.tree.root_page rowid = .ok L :=
    findLeafGo_to_descend s.pager rowid fuel s.tree.root_page [] path L hdesc
  constructor
  · simp only [BTree.find, hty]
    rw [if_neg (by simp)]
    rw [hdes]
    dsimp only
    rw [hnd]
    dsimp only
    rw [hsearch]
    dsimp only
    rw [if_pos (by simp)]
  · simp only [TState.delete, hty]
    rw [if_neg (by simp)]
    rw [hdesc]
    dsimp only
    rw [nodeOpen_leaf s.pager L pl hpl hplt]
    dsimp only
    rw [hnd]
    dsimp only
    rw [hsearch]
    dsimp only
    rw [if_pos (by simp)]

theorem create_index_leaf_cell_char (payload : List Nat) (X M U : Nat) :
    BTreeCellFactory.create_index_leaf_cell payload X M U =
      (.indexLeaf ⟨payload.length,
        payload.take (BTreeCellFactory.localPayloadSize payload.length X M U),
        none⟩,
       if BTreeCellFactory.localPayloadSize payload.length X M U <
          payload.length
       then some (payload.drop
         (BTreeCellFactory.localPayloadSize payload.length X M U))
       else none) := rfl

theorem create_index_interior_cell_char (left : Nat) (payload : List Nat)
    (X M U : Nat) :
    BTreeCellFactory.create_index_interior_cell left payload X M U =
      (.indexInterior ⟨left, payload.length,
        payload.take (BTreeCellFactory.localPayloadSize payload.length X M U),
        none⟩,
       if BTreeCellFactory.localPayloadSize payload.length X M U <
          payload.length
       then some (payload.drop
         (BTreeCellFactory.localPayloadSize payload.length X M U))
       else none) := rfl

theorem chainRevGo_not_noData :
    ∀ (cs : List (List Nat)) (p : Pager) (next : Nat),
      (chainRevGo p cs next).1 ≠ .error .noOverflowData := by
  intro cs
  induction cs with
  | nil => intro p next; simp [chainRevGo]
  | cons c cs ih =>
    intro p next
    simp only [chainRevGo, Pager.create_overflow_page, Pager.alloc]
    cases hs : p.allocSchedule with
    | nil =>
      dsimp only
      exact ih _ _
    | cons b rest =>
      cases b with
      | true => simp
      | false =>
        dsimp only
        rw [if_neg (by simp)]
        exact ih _ _

theorem create_overflow_chain_not_noData (t : BTree) (p : Pager)
    (data : List Nat) (hne : data ≠ []) :
    (t.create_overflow_chain p data).1 ≠ .error .noOverflowData := by
  have hcne := chunksOf_ne_nil (t.page_size - 4) hne
  simp only [BTree.create_overflow_chain]
  rw [if_neg (by simpa using hcne)]
  simp only [Pager.create_overflow_page, Pager.alloc]
  cases hs : p.allocSchedule with
  | nil =>
    dsimp only
    split
    · simp
    · exact chainRevGo_not_noData _ _ _
  | cons b rest =>
    dsimp only
    cases b with
    | true => simp
    | false =>
      rw [if_neg (by simp)]
      dsimp only
      split
      · simp
      · exact chainRevGo_not_noData _ _ _

theorem Pager.alloc_preserve (p : Pager) (pg : Page) :
    (∀ x, x ≤ p.page_count → ((p.alloc pg).2).lookup x = p.lookup x) ∧
    p.page_count ≤ (p.alloc pg).2.page_count := by
  simp only [Pager.alloc]
  cases hs : p.allocSchedule with
  | nil =>
    dsimp only
    refine ⟨fun x hx => ?_, by simp⟩
    simp only [Pager.lookup, Pager.store]
    rw [pagesLookup_store p.pages (p.page_count + 1) pg x, if_neg (by omega)]
  | cons b rest =>
    dsimp only
    cases b with
    | true =>
      rw [if_pos rfl]
      exact ⟨fun x hx => rfl, le_refl _⟩
    | false =>
      rw [if_neg (by simp)]
      dsimp only
      refine ⟨fun x hx => ?_, by simp⟩
      simp only [Pager.lookup, Pager.store]
      rw [pagesLookup_store p.pages (p.page_count + 1) pg x, if_neg (by omega)]

theorem freeChainGo_preserve :
    ∀ (fuel : Nat) (p : Pager) (cur : Nat),
      (∀ x, x ≤ p.page_count →
        ((freeChainGo p fuel cur).2).lookup x = p.lookup x) ∧
      p.page_count ≤ (freeChainGo p fuel cur).2.page_count := by
  intro fuel
  induction fuel with
  | zero =>
    intro p cur
    cases cur with
    | zero => exact ⟨fun x _ => rfl, le_refl _⟩
    | succ c => exact ⟨fun x _ => rfl, le_refl _⟩
  | succ f ih =>
    intro p cur
    cases cur with
    | zero => exact ⟨fun x _ => rfl, le_refl _⟩
    | succ c =>
      simp only [freeChainGo]
      cases hg : p.get_page (c + 1) (some .overflow) with
      | error e => exact ⟨fun x _ => rfl, le_refl _⟩
      | ok pg =>
        cases pg with
        | overflow next data =>
          dsimp only
          simp only [Pager.create_free_page]
          cases ha : p.alloc .free with
          | mk r p1 =>
            have hpres := Pager.alloc_preserve p .free
            rw [ha] at hpres
            dsimp only at hpres
            cases r with
            | error e =>
              dsimp only
              exact ⟨fun x hx => hpres.1 x hx, hpres.2⟩
            | ok n =>
              dsimp only
              obtain ⟨hihl, hihc⟩ := ih p1 next
              refine ⟨fun x hx => ?_, by omega⟩
              rw [hihl x (by omega), hpres.1 x hx]
        | btree d => exact ⟨fun x _ => rfl, le_refl _⟩
        | free => exact ⟨fun x _ => rfl, le_refl _⟩

theorem eraseIdx_getElem_lt {α : Type} :
    ∀ (l : List α) (i j : Nat), j < i → (l.eraseIdx i)[j]? = l[j]? := by
  intro l
  induction l with
  | nil => intro i j _; simp [List.eraseIdx]
  | cons a l ih =>
    intro i j hj
    cases i with
    | zero => omega
    | succ i2 =>
      simp only [List.eraseIdx]
      cases j with
      | zero => simp
      | succ j2 =>
        simp only [List.getElem?_cons_succ]
        exact ih i2 j2 (by omega)

theorem eraseIdx_getElem_ge {α : Type} :
    ∀ (l : List α) (i j : Nat), i ≤ j → (l.eraseIdx i)[j]? = l[j + 1]? := by
  intro l
  induction l with
  | nil => intro i j _; simp [List.eraseIdx]
  | cons a l ih =>
    intro i j hj
    cases i with
    | zero => simp [List.eraseIdx]
    | succ i2 =>
      simp only [List.eraseIdx]
      cases j with
      | zero => omega
      | succ j2 =>
        simp only [List.getElem?_cons_succ]
        exact ih i2 j2 (by omega)

theorem eraseIdx_length_lt {α : Type} :
    ∀ (l : List α) (i : Nat), i < l.length →
      (l.eraseIdx i).length = l.length - 1 := by
  intro l
  induction l with
  | nil => intro i h; simp at h
  | cons a l ih =>
    intro i h
    cases i with
    | zero => simp [List.eraseIdx]
    | succ i2 =>
      simp only [List.eraseIdx, List.length_cons]
      rw [ih i2 (by simpa using h)]
      simp at h
      omega

theorem rebalance_noop (s : TState) (L : Nat) (path : List Nat)
    (d : BTreePageData)
    (hlk : s.pager.lookup L = some (.btree d))
    (hdt : d.page_type = (if s.tree.tree_type = .Table then PageType.tableLeaf
      else PageType.indexLeaf))
    (hcnt : 1 ≤ d.cell_count) :
    s.rebalance_after_delete L path = (.ok (), s) := by
  have hnd : nodeData s.pager L = .ok d := by simp [nodeData, hlk]
  have hopen : nodeOpen s.pager L (if s.tree.tree_type = .Table
      then PageType.tableLeaf else PageType.indexLeaf) = .ok () := by
    simp [nodeOpen, Pager.get_page, hlk, Page.pageType, hdt]
  unfold TState.rebalance_after_delete
  cases hrev : path.reverse with
  | nil => simp [rebalanceGo]
  | cons parent rrest =>
    simp only [rebalanceGo]
    by_cases hroot : L = s.tree.root_page
    · rw [if_pos hroot]
    · rw [if_neg hroot]
      rw [hopen]
      dsimp only
      rw [hnd]
      dsimp only
      rw [if_pos hcnt]

theorem nodeOpen_btree (p : Pager) (L : Nat) (pl : BTreePageData)
    (t : PageType) (hpl : p.lookup L = some (.btree pl))
    (hplt : pl.page_type = t) :
    nodeOpen p L t = .ok () := by
  simp [nodeOpen, Pager.get_page, hpl, Page.pageType, hplt]

theorem delete_found_table (s : TState) (fuel : Nat) (rowid : Int)
    (L : Nat) (path : List Nat) (pl : BTreePageData) (idx : Nat)
    (lc : TableLeafCell) (p1 : Pager)
    (hty : s.tree.tree_type = .Table)
    (hwf : pagerWf s.pager)
    (hdesc : s.tree.find_leaf_for_insert s.pager fuel rowid = .ok (L, path))
    (hpl : s.pager.lookup L = some (.btree pl))
    (hplt : pl.page_type = .tableLeaf)
    (hcc : pl.cell_count = pl.cells.length)
    (hsearch : find_table_rowid pl.cells rowid = .ok (true, idx))
    (hcell : pl.cells[idx]? = some (.tableLeaf lc))
    (hfree : (match lc.overflow_page with
        | some op => free_overflow_chain s.pager fuel op
        | none => ((.ok () : Except Err Unit), s.pager)) = (.ok (), p1))
    (hcount : 2 ≤ pl.cells.length) :
    s.delete fuel rowid =
      (.ok true, { s with pager := p1.store L (.btree (erasedLeaf pl idx)) }) := by
  simp only [erasedLeaf]
  have hLle := (Pager.lookup_le_page_count hwf hpl).2
  have hp1 : ∀ x, x ≤ s.pager.page_count → p1.lookup x = s.pager.lookup x := by
    cases hov : lc.overflow_page with
    | none =>
      rw [hov] at hfree
      dsimp only at hfree
      injection hfree with h1 h2
      subst h2
      exact fun x _ => rfl
    | some op =>
      rw [hov] at hfree
      dsimp only at hfree
      intro x hx
      have := (freeChainGo_preserve fuel s.pager op).1 x hx
      rw [show (freeChainGo s.pager fuel op).2 = p1 from congrArg Prod.snd hfree] at this
      exact this
  have hnd : nodeData s.pager L = .ok pl := by simp [nodeData, hpl]
  have hgc : pl.getCell idx = .ok (.tableLeaf lc) := by
    simp [BTreePageData.getCell, hcell]
  have hgp : p1.get_page L (some .tableLeaf) = .ok (.btree pl) := by
    simp [Pager.get_page, hp1 L hLle, hpl, Page.pageType, hplt]
  simp only [TState.delete, hty]
  rw [if_neg (by simp)]
  rw [hdesc]
  dsimp only
  rw [nodeOpen_btree s.pager L pl .tableLeaf hpl hplt]
  dsimp only
  rw [hnd]
  dsimp only
  rw [hsearch]
  dsimp only
  rw [if_neg (by simp)]
  rw [hgc]
  dsimp only
  rw [hfree]
  dsimp only
  rw [hgp]
  dsimp only
  rw [rebalance_noop _ L path _ (by rw [Pager.lookup_store, if_pos rfl])
    (by dsimp only; rw [hplt, hty]; rfl) (by dsimp only; omega)]

theorem delete_found_index (s : TState) (fuel : Nat) (key : SqliteValue)
    (L : Nat) (pl : BTreePageData) (idx : Nat) (lc : IndexLeafCell)
    (path2 : List Nat)
    (hty : s.tree.tree_type = .Index)
    (hfind : s.tree.find_index_key s.pager fuel key = .ok (true, L, idx))
    (hpl : s.pager.lookup L = some (.btree pl))
    (hplt : pl.page_type = .indexLeaf)
    (hcc : pl.cell_count = pl.cells.length)
    (hcell : pl.cells[idx]? = some (.indexLeaf lc))
    (hno : lc.overflow_page = none)
    (hpath : s.tree.get_path_to_leaf
      (s.pager.store L (.btree (erasedLeaf pl idx))) fuel L key = .ok path2)
    (hcount : 2 ≤ pl.cells.length) :
    s.delete_index fuel key = (.ok true,
      { s with pager := s.pager.store L (.btree (erasedLeaf pl idx)) }) := by
  simp only [erasedLeaf] at hpath ⊢
  have hnd : nodeData s.pager L = .ok pl := by simp [nodeData, hpl]
  have hgc : pl.getCell idx = .ok (.indexLeaf lc) := by
    simp [BTreePageData.getCell, hcell]
  have hgp : s.pager.get_page L (some .indexLeaf) = .ok (.btree pl) := by
    simp [Pager.get_page, hpl, Page.pageType, hplt]
  simp only [TState.delete_index, hty]
  rw [if_neg (by simp)]
  rw [hfind]
  dsimp only
  rw [if_neg (by simp)]
  rw [nodeOpen_btree s.pager L pl .indexLeaf hpl hplt]
  dsimp only
  rw [hnd]
  dsimp only
  rw [hgc]
  dsimp only
  rw [hno]
  dsimp only
  rw [hgp]
  dsimp only
  rw [hpath]
  dsimp only
  rw [rebalance_noop _ L path2 _ (by rw [Pager.lookup_store, if_pos rfl])
    (by dsimp only; rw [hplt, hty]; rfl) (by dsimp only; omega)]

theorem chainRevGo_preserve :
    ∀ (cs : List (List Nat)) (p : Pager) (next : Nat),
      (∀ x, x ≤ p.page_count →
        ((chainRevGo p cs next).2).lookup x = p.lookup x) ∧
      p.page_count ≤ (chainRevGo p cs next).2.page_count := by
  intro cs
  induction cs with
  | nil => intro p next; exact ⟨fun x _ => rfl, le_refl _⟩
  | cons c cs ih =>
    intro p next
    simp only [chainRevGo, Pager.create_overflow_page]
    have hal := Pager.alloc_preserve p (.overflow next c)
    cases halloc : p.alloc (.overflow next c) with
    | mk r p1 =>
      rw [halloc] at hal
      cases r with
      | error e => exact hal
      | ok page =>
        dsimp only
        have h2 := ih p1 page
        exact ⟨fun x hx => (h2.1 x (le_trans hx hal.2)).trans (hal.1 x hx),
          le_trans hal.2 h2.2⟩

theorem create_overflow_chain_preserve (t : BTree) (p : Pager)
    (data : List Nat) :
    (∀ x, x ≤ p.page_count →
      ((t.create_overflow_chain p data).2).lookup x = p.lookup x) ∧
    p.page_count ≤ (t.create_overflow_chain p data).2.page_count := by
  simp only [BTree.create_overflow_chain]
  split
  · exact ⟨fun x _ => rfl, le_refl _⟩
  · have hal := Pager.alloc_preserve p
      (.overflow 0 ((chunksOf (t.page_size - 4) data).getLastD []))
    simp only [Pager.create_overflow_page]
    cases halloc : p.alloc
        (.overflow 0 ((chunksOf (t.page_size - 4) data).getLastD [])) with
    | mk r p1 =>
      rw [halloc] at hal
      cases r with
      | error e => exact hal
      | ok last_page =>
        dsimp only
        split
        · exact hal
        · have h2 := chainRevGo_preserve
            (chunksOf (t.page_size - 4) data).dropLast.reverse p1 last_page
          exact ⟨fun x hx => (h2.1 x (le_trans hx hal.2)).trans (hal.1 x hx),
            le_trans hal.2 h2.2⟩

theorem create_table_leaf_cell_overflow_ne (r : Int) (payload : List Nat)
    (X M U : Nat) (od : List Nat)
    (h : (BTreeCellFactory.create_table_leaf_cell r payload X M U).2 = some od) :
    od ≠ [] := by
  rw [create_table_leaf_cell_char] at h
  dsimp only at h
  split at h
  · rename_i hlt
    injection h with h
    subst h
    intro hnil
    have := List.length_drop
      (BTreeCellFactory.localPayloadSize payload.length X M U) payload
    rw [hnil] at this
    simp at this
    omega
  · exact absurd h (by simp)

theorem create_index_leaf_cell_overflow_ne (payload : List Nat)
    (X M U : Nat) (od : List Nat)
    (h : (BTreeCellFactory.create_index_leaf_cell payload X M U).2 = some od) :
    od ≠ [] := by
  rw [create_index_leaf_cell_char] at h
  dsimp only at h
  split at h
  · rename_i hlt
    injection h with h
    subst h
    intro hnil
    have := List.length_drop
      (BTreeCellFactory.localPayloadSize payload.length X M U) payload
    rw [hnil] at this
    simp at this
    omega
  · exact absurd h (by simp)

theorem readChainGo_cyc :
    ∀ (fuel : Nat) (acc : List Nat),
      readChainGo pagerCyc fuel 3 acc = .error .fuelOut := by
  intro fuel
  induction fuel with
  | zero => intro acc; rfl
  | succ n ih =>
    intro acc
    have hstep : readChainGo pagerCyc (n + 1) 3 acc
        = readChainGo pagerCyc n 3 (acc ++ [7]) := rfl
    rw [hstep, ih]

/-! ## The claims -/

/-- C1 witness: inserting the record `[integer 5]` at rowid 2 into the
two-cell root leaf of `stLeafW` (no split needed), then finding rowid 2,
returns exactly that record. -/
theorem insert_then_find_without_split_witness :
    (stLeafW.insert 9 2 ⟨[.integer 5]⟩).1 = .ok () ∧
    stLeafW.tree.find (stLeafW.insert 9 2 ⟨[.integer 5]⟩).2.pager 20 2 =
      .ok (some ⟨[.integer 5]⟩) := by
  have h := insert_then_find_without_split stLeafW 9 2 ⟨[.integer 5]⟩ 2 []
    plLeafW [1, 3] (by decide) (by decide) (by decide) (by decide) (by decide)
    (by decide) (by decide) (by decide) (by decide) (by decide) (by decide)
  exact ⟨h.1, h.2.2 20 (by decide)⟩

/-- C1 counterexample: on the splitting path insert-then-find fails.
`stSplit` is a well-formed two-level table tree (`wfTableTree`/`pagerWf`
check the routing invariants); inserting rowid 10 succeeds but splits the
full left leaf, and `propagate_split`'s unconditional
`set_right_most_child` (btree.rs:944) redirects the parent's rightmost
pointer to the new sibling even though the split child was not on the
rightmost path — after which `find(10)` returns `Ok(None)`: the freshly
inserted key is unreachable. -/
theorem insert_then_find_after_split_cex :
    wfTableTree stSplit.pager 9 2 = true ∧
    pagerWf stSplit.pager ∧
    (stSplit.insert 10 10 (recB 7)).1 = .ok () ∧
    (stSplit.insert 10 10 (recB 7)).2.tree.find
      (stSplit.insert 10 10 (recB 7)).2.pager 14 10 = .ok none := by
  decide

/-- C2 (code bug, btree.rs:923 and btree.rs:997, `let payload = vec![];`
with the source's own comment "Simplified - should be proper payload"): for
every index-tree state, the separator cell fabricated for the parent during
a split carries an empty payload — not the full key payload of the split
boundary cell — so index-interior routing loses the separator key. -/
theorem index_separator_payload_empty (s : TState) (lp : Nat) (mk : Int)
    (hty : s.tree.tree_type = .Index) :
    parentSeparatorCell s lp mk =
      (.ok (.indexInterior ⟨lp, 0, [], none⟩), s) := by
  simp [parentSeparatorCell, hty, create_index_interior_cell_char,
    BTreeCellFactory.localPayloadSize]

/-- C2 witness: the separator the index tree `stIdxW` would push into a
parent for left page 5 and median 0 is the empty-payload interior cell. -/
theorem index_separator_payload_empty_witness :
    parentSeparatorCell stIdxW 5 0 =
      (.ok (.indexInterior ⟨5, 0, [], none⟩), stIdxW) :=
  index_separator_payload_empty stIdxW 5 0 (by decide)

/-- C3 (amended): the cell factory's local-payload rule, for table and index
leaf cells alike: all `P` bytes stay local when `P ≤ X`; otherwise, with
`m = min(M, (U - 35) / 4)`, the local size is `P` when `P ≤ m` and
`m + ((P - m) % (U - 4))` otherwise.  Contrary to the spec there is no
fallback to `L = m` when the computed `L` exceeds `X` (the counterexample
exhibits a local payload above `max(X, m)`); the cell's local payload is
the `localPayloadSize`-prefix of the payload in every case. -/
theorem cell_factory_local_size_formula :
    (∀ (P X M U : Nat), BTreeCellFactory.localPayloadSize P X M U =
      if P ≤ X then P
      else if P ≤ min M ((U - 35) / 4) then P
      else min M ((U - 35) / 4) + (P - min M ((U - 35) / 4)) % (U - 4)) ∧
    (∀ (r : Int) (payload : List Nat) (X M U : Nat),
      (BTreeCellFactory.create_table_leaf_cell r payload X M U).1 =
        .tableLeaf ⟨payload.length, r, payload.take
          (BTreeCellFactory.localPayloadSize payload.length X M U), none⟩) ∧
    (∀ (payload : List Nat) (X M U : Nat),
      (BTreeCellFactory.create_index_leaf_cell payload X M U).1 =
        .indexLeaf ⟨payload.length, payload.take
          (BTreeCellFactory.localPayloadSize payload.length X M U), none⟩) :=
  ⟨fun _ _ _ _ => rfl, fun _ _ _ _ _ => rfl, fun _ _ _ _ => rfl⟩

/-- C3 counterexample: with usable size `U = 100`, max-local `X = 30`,
min-local `M = 20` and a 40-byte payload, `P > X` and the spec's formula
computes `L = 40 > X`, demanding the fallback `L = m`; the code has no such
fallback and stores all 40 bytes locally with no overflow — more than
`max(X, m) = 30` bytes. -/
theorem cell_factory_exceeds_max_local_cex :
    BTreeCellFactory.create_table_leaf_cell 1 (List.replicate 40 7) 30 20 100 =
      (.tableLeaf ⟨40, 1, List.replicate 40 7, none⟩, none) ∧
    BTreeCellFactory.localPayloadSize 40 30 20 100 = 40 := by
  decide

/-- C4 (code bug): deleting rowid 7 from `stOv` — whose only cell owns the
one-page overflow chain at page 3 — succeeds, yet page 3 is still an
allocated overflow page afterwards: `free_overflow_chain` walks the chain
but calls `create_free_page(0)` (btree.rs:737, "For now, we just create a
free page"), which allocates a brand-new free page (page 4 here, growing
the file to 4 pages) instead of freeing the chain page it visited. -/
theorem delete_leaves_chain_pages_cex :
    (stOv.delete 9 7).1 = .ok true ∧
    (stOv.delete 9 7).2.pager.lookup 3 =
      some (.overflow 0 [170, 170, 170, 170]) ∧
    (stOv.delete 9 7).2.pager.lookup 4 = some .free ∧
    (stOv.delete 9 7).2.pager.page_count = 4 := by
  decide

/-- C5 (code bug): deleting rowid 7 from `stMerge` empties leaf 4, which
merges into leaf 3, leaving the root (page 2) an interior node with zero
cells and the single child 3 — yet `root_page` is still 2: no branch of
`rebalance_after_delete` demotes the root, and the merged-away leaf 4 also
stays allocated (page 5 is created as a fresh free page instead). -/
theorem delete_no_root_demotion_cex :
    (stMerge.delete 9 7).1 = .ok true ∧
    (stMerge.delete 9 7).2.tree.root_page = 2 ∧
    (stMerge.delete 9 7).2.pager.lookup 2 =
      some (.btree ⟨.tableInterior, 0, some 3, []⟩) ∧
    (stMerge.delete 9 7).2.pager.lookup 4 =
      some (.btree ⟨.tableLeaf, 0, none, []⟩) := by
  decide

/-- C6 (amended): `create_overflow_chain` never disturbs pre-existing
pages — whatever page was stored at a number `≤ page_count` before the call
is still stored there after it, whether the call succeeds or fails, and the
file only grows.  The claimed atomicity does not hold: on a mid-chain
allocation failure the pages already allocated for the partial chain are
not freed (see the counterexample). -/
theorem create_overflow_chain_preserves_existing (t : BTree) (p : Pager)
    (data : List Nat) (n : Nat) (pg : Page)
    (hn : n ≤ p.page_count) (hpg : p.lookup n = some pg) :
    ((t.create_overflow_chain p data).2).lookup n = some pg ∧
    p.page_count ≤ (t.create_overflow_chain p data).2.page_count := by
  have h := create_overflow_chain_preserve t p data
  exact ⟨(h.1 n hn).trans hpg, h.2⟩

/-- C6 witness: building a chain on top of `stOv`'s pager leaves its
overflow page 3 in place and does not shrink the file. -/
theorem create_overflow_chain_preserves_existing_witness :
    ((cfg8.create_overflow_chain stOv.pager [1, 2, 3, 4, 5]).2).lookup 3 =
      some (.overflow 0 [170, 170, 170, 170]) ∧
    stOv.pager.page_count ≤
      (cfg8.create_overflow_chain stOv.pager [1, 2, 3, 4, 5]).2.page_count :=
  create_overflow_chain_preserves_existing cfg8 stOv.pager [1, 2, 3, 4, 5] 3
    (.overflow 0 [170, 170, 170, 170]) (by decide) (by decide)

/-- C6 counterexample: with 8-byte pages (4 data bytes per overflow page)
and a schedule whose second allocation fails, creating a chain for 8 data
bytes allocates the terminal page (page 1, holding the last chunk
`[5, 6, 7, 8]`), then hits the injected I/O error — and surfaces it with
page 1 still allocated: the partial chain is not cleaned up, refuting the
claimed atomicity. -/
theorem create_overflow_chain_partial_leak_cex :
    cfg8.create_overflow_chain pagerFail [1, 2, 3, 4, 5, 6, 7, 8] =
      (.error .ioError, ⟨[(1, .overflow 0 [5, 6, 7, 8])], 1, []⟩) := by
  decide

/-- C7 (amended): reading a genuine — finite, hence acyclic — overflow
chain (`IsChain`) succeeds with the concatenated data once the fuel covers
the chain's length; but the source loop has no cycle detection of any kind:
on the cyclic pager `pagerCyc` (page 3's `next_page` is 3 itself),
`read_overflow_chain` exhausts every fuel bound — the model of the source's
infinite loop — rather than failing with a corruption error within
`page_count` steps. -/
theorem read_overflow_chain_acyclic_and_cycle :
    (∀ (q : Pager) (lo hi n : Nat) (segs : List (List Nat)),
      IsChain q lo hi n segs → ∀ fuel, segs.length ≤ fuel →
        read_overflow_chain q fuel n = .ok segs.flatten) ∧
    (∀ fuel, read_overflow_chain pagerCyc fuel 3 = .error .fuelOut) := by
  constructor
  · intro q lo hi n segs h fuel hf
    have := IsChain.read h fuel [] hf
    simpa [read_overflow_chain] using this
  · intro fuel
    exact readChainGo_cyc fuel []

/-- C7 witness: the one-page chain of `stOv` reads back its four data
bytes, and the cyclic pager exhausts a fuel of 31. -/
theorem read_overflow_chain_acyclic_and_cycle_witness :
    read_overflow_chain stOv.pager 9 3 = .ok [170, 170, 170, 170] ∧
    read_overflow_chain pagerCyc 31 3 = .error .fuelOut := by
  constructor
  · exact read_overflow_chain_acyclic_and_cycle.1 stOv.pager 2 3 3
      [[170, 170, 170, 170]]
      (.cons (by decide) (by decide) (by decide) (.nil 3)) 9 (by decide)
  · exact read_overflow_chain_acyclic_and_cycle.2 31

/-- C7 counterexample: `pagerCyc` holds a self-pointing overflow page 3 in
a 3-page file; with fuel 31 — far beyond the claim's `page_count` bound for
cycle detection — `read_overflow_chain` still has not terminated (no
`CorruptChain`-style error exists in the code), so the model reports
exhausted fuel, standing for the source's infinite loop. -/
theorem read_overflow_chain_cycle_cex :
    read_overflow_chain pagerCyc 31 3 = .error .fuelOut ∧
    pagerCyc.page_count = 3 := by
  decide

/-- C8 witness: rowid 2 is absent from `stLeafW` (which holds rowids 1 and
3): `find` answers `Ok(None)`, `delete` answers `Ok(false)` and returns the
state unchanged. -/
theorem find_delete_absent_rowid_witness :
    stLeafW.tree.find stLeafW.pager 9 2 = .ok none ∧
    stLeafW.delete 9 2 = (.ok false, stLeafW) :=
  find_delete_absent_rowid stLeafW 9 2 2 [] plLeafW [1, 3] (by decide)
    (by decide) (by decide) (by decide) (by decide) (by decide)

/-- C9: the "No data to store in overflow chain" branch is unreachable from
the inserts: both leaf-cell factories return overflow data only when it is
non-empty (they return `some` exactly when the local size is strictly below
the payload size, and what they return is the non-empty remainder), and on
any non-empty data `create_overflow_chain` never produces the
`noOverflowData` error. -/
theorem overflow_error_unreachable :
    (∀ (r : Int) (payload : List Nat) (X M U : Nat) (od : List Nat),
      (BTreeCellFactory.create_table_leaf_cell r payload X M U).2 = some od →
      od ≠ []) ∧
    (∀ (payload : List Nat) (X M U : Nat) (od : List Nat),
      (BTreeCellFactory.create_index_leaf_cell payload X M U).2 = some od →
      od ≠ []) ∧
    (∀ (t : BTree) (p : Pager) (data : List Nat), data ≠ [] →
      (t.create_overflow_chain p data).1 ≠ .error .noOverflowData) :=
  ⟨create_table_leaf_cell_overflow_ne, create_index_leaf_cell_overflow_ne,
   create_overflow_chain_not_noData⟩

set_option maxRecDepth 8192 in
/-- C9 witness: a 120-byte payload against `X = 30`, `M = 20`, `U = 100`
splits as 24 local bytes plus a non-empty 96-byte overflow tail, and
creating a chain for a non-empty one-byte payload does not raise the
no-data error. -/
theorem overflow_error_unreachable_witness :
    ((BTreeCellFactory.create_table_leaf_cell 1
        (List.replicate 120 7) 30 20 100).2 =
      some ((List.replicate 120 7).drop 24) ∧
     (List.replicate 120 7).drop 24 ≠ []) ∧
    (cfg512.create_overflow_chain ⟨[], 0, []⟩ [1]).1 ≠
      .error .noOverflowData := by
  refine ⟨⟨by decide, ?_⟩, ?_⟩
  · exact overflow_error_unreachable.1 1 (List.replicate 120 7) 30 20 100 _
      (by decide)
  · exact overflow_error_unreachable.2.2 cfg512 ⟨[], 0, []⟩ [1] (by decide)

/-- C10 (amended): when the located leaf keeps at least one cell after the
removal (so `rebalance_after_delete` is a no-op; otherwise borrowing or
merging rewrites the leaf further — see the counterexample), a successful
`delete` / `delete_index` rewrites exactly the located leaf page to
`erasedLeaf pl idx`: the found cell is gone, every other cell keeps its
value and relative order (cells before `idx` in place, cells after shifted
down by one), and the cell count drops by exactly one. -/
theorem delete_removes_exactly_one :
    (∀ (s : TState) (fuel : Nat) (rowid : Int) (L : Nat) (path : List Nat)
        (pl : BTreePageData) (idx : Nat) (lc : TableLeafCell) (p1 : Pager),
      s.tree.tree_type = .Table → pagerWf s.pager →
      s.tree.find_leaf_for_insert s.pager fuel rowid = .ok (L, path) →
      s.pager.lookup L = some (.btree pl) →
      pl.page_type = .tableLeaf →
      pl.cell_count = pl.cells.length →
      find_table_rowid pl.cells rowid = .ok (true, idx) →
      pl.cells[idx]? = some (.tableLeaf lc) →
      (match lc.overflow_page with
        | some op => free_overflow_chain s.pager fuel op
        | none => ((.ok () : Except Err Unit), s.pager)) = (.ok (), p1) →
      2 ≤ pl.cells.length →
      s.delete fuel rowid = (.ok true,
        { s with pager := p1.store L (.btree (erasedLeaf pl idx)) })) ∧
    (∀ (s : TState) (fuel : Nat) (key : SqliteValue) (L : Nat)
        (pl : BTreePageData) (idx : Nat) (lc : IndexLeafCell)
        (path2 : List Nat),
      s.tree.tree_type = .Index →
      s.tree.find_index_key s.pager fuel key = .ok (true, L, idx) →
      s.pager.lookup L = some (.btree pl) →
      pl.page_type = .indexLeaf →
      pl.cell_count = pl.cells.length →
      pl.cells[idx]? = some (.indexLeaf lc) →
      lc.overflow_page = none →
      s.tree.get_path_to_leaf (s.pager.store L (.btree (erasedLeaf pl idx)))
        fuel L key = .ok path2 →
      2 ≤ pl.cells.length →
      s.delete_index fuel key = (.ok true,
        { s with pager := s.pager.store L (.btree (erasedLeaf pl idx)) })) ∧
    (∀ (pl : BTreePageData) (idx : Nat), idx < pl.cells.length →
      (erasedLeaf pl idx).cells.length = pl.cells.length - 1 ∧
      (∀ j, j < idx → (erasedLeaf pl idx).cells[j]? = pl.cells[j]?) ∧
      (∀ j, idx ≤ j → (erasedLeaf pl idx).cells[j]? = pl.cells[j + 1]?)) := by
  refine ⟨delete_found_table, delete_found_index, fun pl idx h =>
    ⟨eraseIdx_length_lt _ _ h, fun j hj => eraseIdx_getElem_lt _ _ _ hj,
     fun j hj => eraseIdx_getElem_ge _ _ _ hj⟩⟩

/-- C10 witness: removing rowid 1 from `stLeafW` (table) and the key
`[integer 5]` from `stIdxW2` (index) each rewrite the root leaf to its
`erasedLeaf`, and the frame facts hold for that leaf at index 0. -/
theorem delete_removes_exactly_one_witness :
    stLeafW.delete 9 1 = (.ok true,
      ⟨stLeafW.tree, stLeafW.pager.store 2 (.btree (erasedLeaf plLeafW 0))⟩) ∧
    stIdxW2.delete_index 9 (.integer 5) = (.ok true,
      ⟨stIdxW2.tree,
       stIdxW2.pager.store 2 (.btree (erasedLeaf plIdxW2 0))⟩) ∧
    (erasedLeaf plLeafW 0).cells.length = plLeafW.cells.length - 1 := by
  refine ⟨?_, ?_, ?_⟩
  · exact delete_removes_exactly_one.1 stLeafW 9 1 2 [] plLeafW 0
      ⟨3, 1, [2, 8], none⟩ stLeafW.pager (by decide) (by decide) (by decide)
      (by decide) (by decide) (by decide) (by decide) (by decide) rfl
      (by decide)
  · exact delete_removes_exactly_one.2.1 stIdxW2 9 (.integer 5) 2 plIdxW2 0
      ⟨3, [2, 1, 5], none⟩ [] (by decide) (by decide) (by decide) (by decide)
      (by decide) (by decide) (by decide) (by decide) (by decide)
  · exact (delete_removes_exactly_one.2.2 plLeafW 0 (by decide)).1

/-- C10 counterexample: deleting rowid 5 from `stBorrow` succeeds but does
not remove exactly one cell from the located leaf: leaf 4 (holding only
rowid 5) drops below the one-cell minimum, and `rebalance_after_delete`
borrows rowid 2 from the left sibling — leaf 4 ends with one cell again
(rowid 2, a cell that was never in it), so its cell count did not decrease
at all. -/
theorem delete_rebalance_changes_leaf_cex :
    (stBorrow.delete 9 5).1 = .ok true ∧
    (stBorrow.delete 9 5).2.pager.lookup 4 =
      some (.btree ⟨.tableLeaf, 1, none, [.tableLeaf ⟨3, 2, [2, 9], none⟩]⟩) := by
  decide

end RQLite
